import Mathlib

/-!
# Verification of the `bad_package` automatic-differentiation interface

Shallow embedding of `src/bad_package/interface.py` (classes `AutoDiff` and
`ReverseAD`) over ℚ.  The forward kernel (`fad.DualNumber`), the reverse
kernel (`rad.ReverseMode`) and the elementary-function library are not part
of the provided sources; they are modelled from the specification
(sections 3, 4.1, 4.2 of the spec) and marked `Modelled from the spec:` in
their doc comments.  User functions are represented by a small expression
language `Expr` covering the arithmetic operations the repository's tests
exercise (add, sub, mul, div, negation, natural powers and natural log);
the numeric value of the logarithm is abstracted as a parameter `L : ℚ → ℚ`
since ℚ has no exact logarithm — every statement below is uniform in `L`.
-/

namespace BadPackage

/-- Python exception values raised by the interface or the kernels. -/
inductive PyError where
  | domainError : PyError
  | typeError : String → PyError
  | notImplementedError : String → PyError
deriving DecidableEq

/-- Modelled from the spec: the forward kernel value type `DualNumber`
(`bad_package.fad`, not under `src/`): a primal (`real`) and a tangent
(`dual`), per spec section 3. -/
structure DualNumber where
  real : ℚ
  dual : ℚ
deriving DecidableEq

/-- Binary operations appearing in user functions of this repository. -/
inductive BinOp where
  | add : BinOp
  | sub : BinOp
  | mul : BinOp
  | div : BinOp
deriving DecidableEq

/-- Unary operations: negation, natural log (`ln`) and natural powers
(`x ** n` with a nonnegative integer literal exponent, as used in the
repository's tests). -/
inductive UnOp where
  | neg : UnOp
  | ln : UnOp
  | pown : Nat → UnOp
deriving DecidableEq

/-- A user function body: expressions over variables `x[i]`, rational
constants and the supported operations.  Python constants never become
kernel values on the forward path (their tangent is 0) — `Expr.const`
models exactly that. -/
inductive Expr where
  | const : ℚ → Expr
  | var : Nat → Expr
  | bin : BinOp → Expr → Expr → Expr
  | un : UnOp → Expr → Expr
deriving DecidableEq

/-- Real-valued result of a binary operation. -/
def BinOp.val : BinOp → ℚ → ℚ → ℚ
  | .add, a, b => a + b
  | .sub, a, b => a - b
  | .mul, a, b => a * b
  | .div, a, b => a / b

/-- Domain check of a binary operation: division requires a nonzero
denominator primal (spec section 7: `DomainError` on division by zero). -/
def BinOp.ok : BinOp → ℚ → ℚ → Bool
  | .div, _, b => decide (b ≠ 0)
  | _, _, _ => true

/-- Local derivative of a binary operation in its first argument. -/
def BinOp.d1 : BinOp → ℚ → ℚ → ℚ
  | .add, _, _ => 1
  | .sub, _, _ => 1
  | .mul, _, b => b
  | .div, _, b => 1 / b

/-- Local derivative of a binary operation in its second argument. -/
def BinOp.d2 : BinOp → ℚ → ℚ → ℚ
  | .add, _, _ => 1
  | .sub, _, _ => -1
  | .mul, a, _ => a
  | .div, a, b => -(a / (b * b))

/-- Real-valued result of a unary operation; `L` stands for the natural
logarithm (abstract, since ℚ has no exact log). -/
def UnOp.val (L : ℚ → ℚ) : UnOp → ℚ → ℚ
  | .neg, a => -a
  | .ln, a => L a
  | .pown n, a => a ^ n

/-- Domain check of a unary operation: `ln` requires a positive primal
(spec section 7: `DomainError` on log of a non-positive value). -/
def UnOp.ok : UnOp → ℚ → Bool
  | .ln, a => decide (0 < a)
  | _, _ => true

/-- Local derivative of a unary operation. -/
def UnOp.d : UnOp → ℚ → ℚ
  | .neg, _ => -1
  | .ln, a => 1 / a
  | .pown n, a => n * a ^ (n - 1)

/-- All variable indices of the expression are below `nv`. -/
def Expr.boundedB : Expr → Nat → Bool
  | .const _, _ => true
  | .var i, nv => decide (i < nv)
  | .bin _ a b, nv => a.boundedB nv && b.boundedB nv
  | .un _ a, nv => a.boundedB nv

/-- Mathematical value of an expression at variable assignment `V`
(the role of the "real function of the inputs' primals" in the spec's
chain-rule contract). -/
def fval (L : ℚ → ℚ) (V : Nat → ℚ) : Expr → ℚ
  | .const c => c
  | .var i => V i
  | .bin op a b => op.val (fval L V a) (fval L V b)
  | .un op a => op.val L (fval L V a)

/-- Mathematical directional derivative of an expression at primals `V`
with tangent seeds `T` (the exact chain rule of spec section 4.1). -/
def flin (L : ℚ → ℚ) (V T : Nat → ℚ) : Expr → ℚ
  | .const _ => 0
  | .var i => T i
  | .bin op a b =>
      op.d1 (fval L V a) (fval L V b) * flin L V T a +
        op.d2 (fval L V a) (fval L V b) * flin L V T b
  | .un op a => op.d (fval L V a) * flin L V T a

/-- Mathematical j-th partial derivative at `V`: the directional
derivative under one-hot seeding of coordinate `j`. -/
def fpart (L : ℚ → ℚ) (V : Nat → ℚ) (j : Nat) (e : Expr) : ℚ :=
  flin L V (fun i => if i = j then 1 else 0) e

/-- Modelled from the spec: one binary operation of the forward kernel
(`fad.DualNumber` operator overloads, not under `src/`): result primal is
the real operation of the primals, result tangent the chain-rule
combination of the tangents; a domain violation raises `DomainError`
immediately (spec sections 4.1, 7). -/
def dualApplyBin (op : BinOp) (x y : DualNumber) : Except PyError DualNumber :=
  if op.ok x.real y.real then
    .ok ⟨op.val x.real y.real,
      op.d1 x.real y.real * x.dual + op.d2 x.real y.real * y.dual⟩
  else .error .domainError

/-- Modelled from the spec: one unary operation of the forward kernel
(elementary-function library variant for `DualNumber`, not under `src/`). -/
def dualApplyUn (L : ℚ → ℚ) (op : UnOp) (x : DualNumber) : Except PyError DualNumber :=
  if op.ok x.real then
    .ok ⟨op.val L x.real, op.d x.real * x.dual⟩
  else .error .domainError

/-- Modelled from the spec: evaluating a user function body on forward
kernel values `xs` (the list the driver passes as `self.trace`), raising
the first `DomainError` encountered.  Python constants enter operations
with tangent 0. -/
def evalF (L : ℚ → ℚ) (xs : List DualNumber) : Expr → Except PyError DualNumber
  | .const c => .ok ⟨c, 0⟩
  | .var i => .ok (xs.getD i ⟨0, 0⟩)
  | .bin op a b =>
    match evalF L xs a with
    | .error err => .error err
    | .ok x =>
      match evalF L xs b with
      | .error err => .error err
      | .ok y => dualApplyBin op x y
  | .un op a =>
    match evalF L xs a with
    | .error err => .error err
    | .ok x => dualApplyUn L op x

theorem evalF_spec (L : ℚ → ℚ) (xs : List DualNumber) :
    ∀ (e : Expr) (d : DualNumber), evalF L xs e = .ok d →
      d.real = fval L (fun i => (xs.getD i ⟨0, 0⟩).real) e ∧
      d.dual = flin L (fun i => (xs.getD i ⟨0, 0⟩).real)
        (fun i => (xs.getD i ⟨0, 0⟩).dual) e := by
  intro e
  induction e with
  | const c =>
    intro d hd
    simp only [evalF] at hd
    cases hd
    exact ⟨rfl, rfl⟩
  | var i =>
    intro d hd
    simp only [evalF] at hd
    cases hd
    exact ⟨rfl, rfl⟩
  | bin op a b iha ihb =>
    intro d hd
    rw [evalF] at hd
    split at hd
    · cases hd
    case _ x ha =>
      split at hd
      · cases hd
      case _ y hb =>
        obtain ⟨hxr, hxd⟩ := iha x ha
        obtain ⟨hyr, hyd⟩ := ihb y hb
        unfold dualApplyBin at hd
        split at hd
        · cases hd
          constructor
          · simp only [fval, hxr, hyr]
          · simp only [flin, hxr, hyr, hxd, hyd]
        · cases hd
  | un op a iha =>
    intro d hd
    rw [evalF] at hd
    split at hd
    · cases hd
    case _ x ha =>
      obtain ⟨hxr, hxd⟩ := iha x ha
      unfold dualApplyUn at hd
      split at hd
      · cases hd
        constructor
        · simp only [fval, hxr]
        · simp only [flin, hxr, hxd]
      · cases hd

/-- Modelled from the spec: the reverse kernel node type
(`rad.ReverseMode`, not under `src/`): a fixed primal `value`, an edge
list `child` of (local partial, consumer) pairs recorded when the node is
consumed by an operation, and a mutable gradient accumulator that is
`none` until seeded or memoized (spec sections 3, 4.2).  Python object
references become indices into an arena that grows monotonically, so every
edge points to a node created later. -/
structure RNode where
  value : ℚ
  child : List (ℚ × Nat)
  gradient : Option ℚ
deriving DecidableEq

/-- The object graph of one reverse-mode evaluation: nodes in creation
order (seed nodes first). -/
abbrev Arena := List RNode

/-- Default node returned for an out-of-range index. -/
def dflt : RNode := ⟨0, [], none⟩

/-- Primal value of node `i`. -/
def nval (A : Arena) (i : Nat) : ℚ := (A.getD i dflt).value

/-- Edge list of node `i`. -/
def nchild (A : Arena) (i : Nat) : List (ℚ × Nat) := (A.getD i dflt).child

/-- Gradient accumulator of node `i`. -/
def ngrad (A : Arena) (i : Nat) : Option ℚ := (A.getD i dflt).gradient

/-- Append one edge to node `i`'s edge list
(Python `node.child.append((weight, consumer))`). -/
def addEdge (A : Arena) (i : Nat) (p : ℚ × Nat) : Arena :=
  List.set A i ⟨nval A i, nchild A i ++ [p], ngrad A i⟩

/-- Set node `i`'s gradient accumulator (Python `z.gradient = 1.0`). -/
def setGrad (A : Arena) (i : Nat) (g : ℚ) : Arena :=
  List.set A i ⟨nval A i, nchild A i, some g⟩

/-- Seed nodes for a variable vector (the `self.trace` built by
`ReverseAD.__init__`): fresh nodes with empty edge lists and unset
gradients. -/
def seedArena (xs : List ℚ) : Arena := xs.map (fun v => ⟨v, [], none⟩)

/-- Modelled from the spec: one binary operation on reverse nodes
(`rad.ReverseMode` operator overloads, not under `src/`): checks the
domain, creates the result node, and appends to each input's edge list
the pair (local partial at the input primals, result node), per spec
section 4.2. -/
def revApplyBin (op : BinOp) (r1 r2 : Nat) (A : Arena) : Except PyError (Nat × Arena) :=
  if op.ok (nval A r1) (nval A r2) then
    let k := A.length
    let A1 : Arena := A ++ [⟨op.val (nval A r1) (nval A r2), [], none⟩]
    .ok (k, addEdge (addEdge A1 r1 (op.d1 (nval A r1) (nval A r2), k))
      r2 (op.d2 (nval A r1) (nval A r2), k))
  else .error .domainError

/-- Modelled from the spec: one unary operation on reverse nodes. -/
def revApplyUn (L : ℚ → ℚ) (op : UnOp) (r1 : Nat) (A : Arena) : Except PyError (Nat × Arena) :=
  if op.ok (nval A r1) then
    let k := A.length
    let A1 : Arena := A ++ [⟨op.val L (nval A r1), [], none⟩]
    .ok (k, addEdge A1 r1 (op.d (nval A r1), k))
  else .error .domainError

/-- Modelled from the spec: evaluating a user function body on the
reverse graph.  A variable reference returns the seed node itself (the
Python function receives `self.trace`); constants become fresh nodes with
no incoming gradient flow; every operation extends the arena and records
edges. -/
def evalR (L : ℚ → ℚ) : Expr → Arena → Except PyError (Nat × Arena)
  | .const c, A => .ok (A.length, A ++ ([⟨c, [], none⟩] : Arena))
  | .var i, A => .ok (i, A)
  | .bin op a b, A =>
    match evalR L a A with
    | .error err => .error err
    | .ok (r1, A1) =>
      match evalR L b A1 with
      | .error err => .error err
      | .ok (r2, A2) => revApplyBin op r1 r2 A2
  | .un op a, A =>
    match evalR L a A with
    | .error err => .error err
    | .ok (r1, A1) => revApplyUn L op r1 A1

/-- Fuel-indexed backward traversal.  Modelled from the spec
(section 4.2): `grad()` of a node returns its accumulator when set
(the seed), and otherwise the sum over its edges of
local partial times the consumer's `grad()`; a node with no recorded
edges and an unset accumulator yields 0 (Python `sum([])`).  Memoization
in the Python code only caches these same values, so the model computes
them directly. -/
def gradFuel (A : Arena) : Nat → Nat → ℚ
  | 0, _ => 0
  | fuel + 1, i =>
    match ngrad A i with
    | some g => g
    | none => ((nchild A i).map (fun p => p.1 * gradFuel A fuel p.2)).sum

/-- Backward traversal with enough fuel: edges always point to
later-created nodes, so `A.length` steps suffice. -/
def grad (A : Arena) (i : Nat) : ℚ := gradFuel A A.length i

/-- Chain-rule sum of an edge list under a given arena's gradients. -/
def esum (A : Arena) (l : List (ℚ × Nat)) : ℚ :=
  (l.map (fun p => p.1 * grad A p.2)).sum

/-- One unfolding step of the backward traversal. -/
def gradStep (A : Arena) (i : Nat) : ℚ :=
  (ngrad A i).getD (esum A (nchild A i))

/-- Well-formed arena: every edge points forward to a later node inside
the arena (the graph is a DAG growing monotonically, spec section 3). -/
def WF (A : Arena) : Prop :=
  ∀ i, i < A.length → ∀ p ∈ nchild A i, i < p.2 ∧ p.2 < A.length

/- ### Arena accessor lemmas -/

theorem arena_length_append (A B : Arena) :
    (A ++ B).length = A.length + B.length := List.length_append A B

theorem getD_out (A : Arena) (i : Nat) (h : A.length ≤ i) : A.getD i dflt = dflt := by
  rw [List.getD_eq_getElem?_getD, List.getElem?_eq_none_iff.mpr h]
  rfl

theorem getD_append_lt (A B : Arena) (i : Nat) (h : i < A.length) :
    (A ++ B).getD i dflt = A.getD i dflt := by
  rw [List.getD_eq_getElem?_getD, List.getD_eq_getElem?_getD,
    List.getElem?_append_left h]

theorem getD_append_self (A : Arena) (x : RNode) :
    (A ++ ([x] : Arena)).getD A.length dflt = x := by
  rw [List.getD_eq_getElem?_getD, List.getElem?_append_right (le_refl _)]
  simp

theorem getD_set_self (A : Arena) (i : Nat) (x : RNode) (h : i < A.length) :
    (List.set A i x).getD i dflt = x := by
  rw [List.getD_eq_getElem?_getD, List.getElem?_set_self h]
  rfl

theorem getD_set_ne (A : Arena) (i j : Nat) (x : RNode) (h : i ≠ j) :
    (List.set A i x).getD j dflt = A.getD j dflt := by
  rw [List.getD_eq_getElem?_getD, List.getD_eq_getElem?_getD,
    List.getElem?_set_ne h]

theorem length_addEdge (A : Arena) (i : Nat) (p : ℚ × Nat) :
    (addEdge A i p).length = A.length := by
  simp [addEdge]

theorem length_setGrad (A : Arena) (i : Nat) (g : ℚ) :
    (setGrad A i g).length = A.length := by
  simp [setGrad]

theorem nval_addEdge (A : Arena) (i j : Nat) (p : ℚ × Nat) :
    nval (addEdge A i p) j = nval A j := by
  unfold addEdge nval
  rcases eq_or_ne i j with rfl | hne
  · rcases lt_or_ge i A.length with h | h
    · rw [getD_set_self _ _ _ h]
    · rw [List.set_eq_of_length_le h]
  · rw [getD_set_ne _ _ _ _ hne]

theorem ngrad_addEdge (A : Arena) (i j : Nat) (p : ℚ × Nat) :
    ngrad (addEdge A i p) j = ngrad A j := by
  unfold addEdge ngrad
  rcases eq_or_ne i j with rfl | hne
  · rcases lt_or_ge i A.length with h | h
    · rw [getD_set_self _ _ _ h]
    · rw [List.set_eq_of_length_le h]
  · rw [getD_set_ne _ _ _ _ hne]

theorem nchild_addEdge_self (A : Arena) (i : Nat) (p : ℚ × Nat) (h : i < A.length) :
    nchild (addEdge A i p) i = nchild A i ++ [p] := by
  unfold addEdge nchild
  rw [getD_set_self _ _ _ h]

theorem nchild_addEdge_ne (A : Arena) (i j : Nat) (p : ℚ × Nat) (h : i ≠ j) :
    nchild (addEdge A i p) j = nchild A j := by
  unfold addEdge nchild
  rw [getD_set_ne _ _ _ _ h]

theorem nval_setGrad (A : Arena) (i j : Nat) (g : ℚ) :
    nval (setGrad A i g) j = nval A j := by
  unfold setGrad nval
  rcases eq_or_ne i j with rfl | hne
  · rcases lt_or_ge i A.length with h | h
    · rw [getD_set_self _ _ _ h]
    · rw [List.set_eq_of_length_le h]
  · rw [getD_set_ne _ _ _ _ hne]

theorem nchild_setGrad (A : Arena) (i j : Nat) (g : ℚ) :
    nchild (setGrad A i g) j = nchild A j := by
  unfold setGrad nchild
  rcases eq_or_ne i j with rfl | hne
  · rcases lt_or_ge i A.length with h | h
    · rw [getD_set_self _ _ _ h]
    · rw [List.set_eq_of_length_le h]
  · rw [getD_set_ne _ _ _ _ hne]

theorem ngrad_setGrad_self (A : Arena) (i : Nat) (g : ℚ) (h : i < A.length) :
    ngrad (setGrad A i g) i = some g := by
  unfold setGrad ngrad
  rw [getD_set_self _ _ _ h]

theorem ngrad_setGrad_ne (A : Arena) (i j : Nat) (g : ℚ) (h : i ≠ j) :
    ngrad (setGrad A i g) j = ngrad A j := by
  unfold setGrad ngrad
  rw [getD_set_ne _ _ _ _ h]

theorem nval_append_lt (A B : Arena) (i : Nat) (h : i < A.length) :
    nval (A ++ B) i = nval A i := by
  unfold nval
  rw [getD_append_lt _ _ _ h]

theorem nchild_append_lt (A B : Arena) (i : Nat) (h : i < A.length) :
    nchild (A ++ B) i = nchild A i := by
  unfold nchild
  rw [getD_append_lt _ _ _ h]

theorem ngrad_append_lt (A B : Arena) (i : Nat) (h : i < A.length) :
    ngrad (A ++ B) i = ngrad A i := by
  unfold ngrad
  rw [getD_append_lt _ _ _ h]

theorem nval_append_self (A : Arena) (x : RNode) :
    nval (A ++ ([x] : Arena)) A.length = x.value := by
  unfold nval
  rw [getD_append_self]

theorem nchild_append_self (A : Arena) (x : RNode) :
    nchild (A ++ ([x] : Arena)) A.length = x.child := by
  unfold nchild
  rw [getD_append_self]

theorem ngrad_append_self (A : Arena) (x : RNode) :
    ngrad (A ++ ([x] : Arena)) A.length = x.gradient := by
  unfold ngrad
  rw [getD_append_self]

theorem nval_out (A : Arena) (i : Nat) (h : A.length ≤ i) : nval A i = 0 := by
  unfold nval
  rw [getD_out _ _ h]
  rfl

theorem nchild_out (A : Arena) (i : Nat) (h : A.length ≤ i) : nchild A i = [] := by
  unfold nchild
  rw [getD_out _ _ h]
  rfl

theorem ngrad_out (A : Arena) (i : Nat) (h : A.length ≤ i) : ngrad A i = none := by
  unfold ngrad
  rw [getD_out _ _ h]
  rfl

/- ### Backward traversal: fuel does not matter once sufficient -/

theorem gradFuel_out (A : Arena) (fuel i : Nat) (h : A.length ≤ i) :
    gradFuel A fuel i = 0 := by
  cases fuel with
  | zero => rfl
  | succ n =>
    rw [gradFuel, ngrad_out A i h, nchild_out A i h]
    rfl

theorem gradFuel_congr (A : Arena) (hwf : WF A) :
    ∀ (fuel1 : Nat) (i : Nat) (fuel2 : Nat), A.length - i ≤ fuel1 →
      A.length - i ≤ fuel2 → gradFuel A fuel1 i = gradFuel A fuel2 i := by
  intro fuel1
  induction fuel1 with
  | zero =>
    intro i fuel2 h1 _
    have hi : A.length ≤ i := Nat.le_of_sub_eq_zero (Nat.le_zero.mp h1)
    rw [gradFuel_out A 0 i hi, gradFuel_out A fuel2 i hi]
  | succ n ih =>
    intro i fuel2 h1 h2
    cases fuel2 with
    | zero =>
      have hi : A.length ≤ i := Nat.le_of_sub_eq_zero (Nat.le_zero.mp h2)
      rw [gradFuel_out A (n + 1) i hi, gradFuel_out A 0 i hi]
    | succ m =>
      rw [gradFuel, gradFuel]
      cases hg : ngrad A i with
      | some g => rfl
      | none =>
        rcases lt_or_ge i A.length with hi | hi
        · have hmap : (nchild A i).map (fun p => p.1 * gradFuel A n p.2) =
              (nchild A i).map (fun p => p.1 * gradFuel A m p.2) := by
            apply List.map_congr_left
            intro p hp
            have hwfp := hwf i hi p hp
            have hd1 : A.length - p.2 ≤ n := by omega
            have hd2 : A.length - p.2 ≤ m := by omega
            rw [ih p.2 m hd1 hd2]
          rw [hmap]
        · rw [nchild_out A i hi]
          rfl

theorem grad_eq_step (A : Arena) (hwf : WF A) (i : Nat) : grad A i = gradStep A i := by
  unfold grad gradStep
  cases hlen : A.length with
  | zero =>
    have hi : A.length ≤ i := by omega
    rw [← hlen, gradFuel_out A A.length i hi, ngrad_out A i hi, nchild_out A i hi]
    rfl
  | succ n =>
    rw [gradFuel]
    cases hg : ngrad A i with
    | some g => rfl
    | none =>
      rcases lt_or_ge i A.length with hi | hi
      · unfold esum
        have hmap : (nchild A i).map (fun p => p.1 * gradFuel A n p.2) =
            (nchild A i).map (fun p => p.1 * grad A p.2) := by
          apply List.map_congr_left
          intro p hp
          have hwfp := hwf i hi p hp
          unfold grad
          have hd1 : A.length - p.2 ≤ n := by omega
          have hd2 : A.length - p.2 ≤ A.length := by omega
          rw [gradFuel_congr A hwf n p.2 A.length hd1 hd2]
        rw [hmap]
        rfl
      · rw [nchild_out A i hi]
        rfl

theorem grad_of_some (A : Arena) (hwf : WF A) (i : Nat) (g : ℚ)
    (h : ngrad A i = some g) : grad A i = g := by
  rw [grad_eq_step A hwf i]
  unfold gradStep
  rw [h]
  rfl

theorem grad_of_none (A : Arena) (hwf : WF A) (i : Nat)
    (h : ngrad A i = none) : grad A i = esum A (nchild A i) := by
  rw [grad_eq_step A hwf i]
  unfold gradStep
  rw [h]
  rfl

theorem esum_append (A : Arena) (l1 l2 : List (ℚ × Nat)) :
    esum A (l1 ++ l2) = esum A l1 + esum A l2 := by
  unfold esum
  rw [List.map_append, List.sum_append]

theorem esum_nil (A : Arena) : esum A [] = 0 := rfl

theorem esum_single (A : Arena) (p : ℚ × Nat) : esum A [p] = p.1 * grad A p.2 := by
  unfold esum
  simp

/- ### Arena extension: what one evaluation step may do to the graph -/

/-- How an arena may evolve during and after an evaluation: values and
gradients of existing nodes are untouched, existing edge lists only grow,
new edges point into the new region, and new nodes are gradient-free with
forward-pointing edges. -/
structure Extends (A A1 : Arena) : Prop where
  mono : A.length ≤ A1.length
  old_val : ∀ i, i < A.length → nval A1 i = nval A i
  old_grad : ∀ i, i < A.length → ngrad A1 i = ngrad A i
  old_child : ∀ i, i < A.length → ∃ ex, nchild A1 i = nchild A i ++ ex ∧
      ∀ p ∈ ex, A.length ≤ p.2 ∧ p.2 < A1.length
  new_grad : ∀ i, A.length ≤ i → i < A1.length → ngrad A1 i = none
  new_child : ∀ i, A.length ≤ i → i < A1.length →
      ∀ p ∈ nchild A1 i, i < p.2 ∧ p.2 < A1.length

theorem Extends.refl (A : Arena) : Extends A A := by
  refine ⟨le_refl _, fun i _ => rfl, fun i _ => rfl,
    fun i _ => ⟨[], by simp, by simp⟩, ?_, ?_⟩
  · intro i h1 h2
    omega
  · intro i h1 h2
    omega

theorem Extends.trans {A B C : Arena} (h1 : Extends A B) (h2 : Extends B C) :
    Extends A C := by
  refine ⟨le_trans h1.mono h2.mono, ?_, ?_, ?_, ?_, ?_⟩
  · intro i hi
    rw [h2.old_val i (lt_of_lt_of_le hi h1.mono), h1.old_val i hi]
  · intro i hi
    rw [h2.old_grad i (lt_of_lt_of_le hi h1.mono), h1.old_grad i hi]
  · intro i hi
    obtain ⟨ex1, he1, hr1⟩ := h1.old_child i hi
    obtain ⟨ex2, he2, hr2⟩ := h2.old_child i (lt_of_lt_of_le hi h1.mono)
    refine ⟨ex1 ++ ex2, by rw [he2, he1, List.append_assoc], ?_⟩
    intro p hp
    rcases List.mem_append.mp hp with hp1 | hp2
    · obtain ⟨ha, hb⟩ := hr1 p hp1
      exact ⟨ha, lt_of_lt_of_le hb h2.mono⟩
    · obtain ⟨ha, hb⟩ := hr2 p hp2
      exact ⟨le_trans h1.mono ha, hb⟩
  · intro i hi hilt
    rcases lt_or_ge i B.length with hib | hib
    · rw [h2.old_grad i hib]
      exact h1.new_grad i hi hib
    · exact h2.new_grad i hib hilt
  · intro i hi hilt p hp
    rcases lt_or_ge i B.length with hib | hib
    · obtain ⟨ex2, he2, hr2⟩ := h2.old_child i hib
      rw [he2] at hp
      rcases List.mem_append.mp hp with hp1 | hp2
      · obtain ⟨ha, hb⟩ := h1.new_child i hi hib p hp1
        exact ⟨ha, lt_of_lt_of_le hb h2.mono⟩
      · obtain ⟨ha, hb⟩ := hr2 p hp2
        exact ⟨lt_of_lt_of_le hib ha, hb⟩
    · exact h2.new_child i hib hilt p hp

theorem Extends.wf {A A1 : Arena} (h : Extends A A1) (hwf : WF A) : WF A1 := by
  intro i hi p hp
  rcases lt_or_ge i A.length with hia | hia
  · obtain ⟨ex, he, hr⟩ := h.old_child i hia
    rw [he] at hp
    rcases List.mem_append.mp hp with hp1 | hp2
    · obtain ⟨ha, hb⟩ := hwf i hia p hp1
      exact ⟨ha, lt_of_lt_of_le hb h.mono⟩
    · obtain ⟨ha, hb⟩ := hr p hp2
      exact ⟨lt_of_lt_of_le hia ha, hb⟩
  · exact h.new_child i hia hi p hp

/- ### Seed arenas -/

theorem seedArena_length (xs : List ℚ) : (seedArena xs).length = xs.length := by
  unfold seedArena
  simp

theorem seedArena_nval (xs : List ℚ) (i : Nat) (h : i < xs.length) :
    nval (seedArena xs) i = xs.getD i 0 := by
  unfold seedArena nval
  rw [List.getD_eq_getElem?_getD, List.getD_eq_getElem?_getD,
    List.getElem?_map]
  rw [List.getElem?_eq_getElem h]
  rfl

theorem seedArena_nchild (xs : List ℚ) (i : Nat) :
    nchild (seedArena xs) i = [] := by
  unfold seedArena nchild
  rcases lt_or_ge i xs.length with h | h
  · rw [List.getD_eq_getElem?_getD, List.getElem?_map, List.getElem?_eq_getElem h]
    rfl
  · rw [getD_out]
    · rfl
    · simpa using h

theorem seedArena_ngrad (xs : List ℚ) (i : Nat) :
    ngrad (seedArena xs) i = none := by
  unfold seedArena ngrad
  rcases lt_or_ge i xs.length with h | h
  · rw [List.getD_eq_getElem?_getD, List.getElem?_map, List.getElem?_eq_getElem h]
    rfl
  · rw [getD_out]
    · rfl
    · simpa using h

theorem seedArena_wf (xs : List ℚ) : WF (seedArena xs) := by
  intro i hi p hp
  rw [seedArena_nchild] at hp
  cases hp

/- ### Characterizing one reverse-mode operation step -/

/-- The arena produced by a successful binary reverse operation. -/
def binStep (op : BinOp) (r1 r2 : Nat) (C : Arena) : Arena :=
  addEdge (addEdge
    (C ++ ([⟨op.val (nval C r1) (nval C r2), [], none⟩] : Arena))
    r1 (op.d1 (nval C r1) (nval C r2), C.length))
    r2 (op.d2 (nval C r1) (nval C r2), C.length)

/-- The arena produced by a successful unary reverse operation. -/
def unStep (L : ℚ → ℚ) (op : UnOp) (r1 : Nat) (C : Arena) : Arena :=
  addEdge (C ++ ([⟨op.val L (nval C r1), [], none⟩] : Arena))
    r1 (op.d (nval C r1), C.length)

theorem revApplyBin_inv {op : BinOp} {r1 r2 : Nat} {C : Arena} {r : Nat} {A1 : Arena}
    (h : revApplyBin op r1 r2 C = .ok (r, A1)) :
    op.ok (nval C r1) (nval C r2) = true ∧ r = C.length ∧ A1 = binStep op r1 r2 C := by
  unfold revApplyBin at h
  split at h
  · cases h
    exact ⟨by assumption, rfl, rfl⟩
  · cases h

theorem revApplyUn_inv {L : ℚ → ℚ} {op : UnOp} {r1 : Nat} {C : Arena} {r : Nat} {A1 : Arena}
    (h : revApplyUn L op r1 C = .ok (r, A1)) :
    op.ok (nval C r1) = true ∧ r = C.length ∧ A1 = unStep L op r1 C := by
  unfold revApplyUn at h
  split at h
  · cases h
    exact ⟨by assumption, rfl, rfl⟩
  · cases h

theorem binStep_length (op : BinOp) (r1 r2 : Nat) (C : Arena) :
    (binStep op r1 r2 C).length = C.length + 1 := by
  unfold binStep
  rw [length_addEdge, length_addEdge, arena_length_append]
  rfl

theorem unStep_length (L : ℚ → ℚ) (op : UnOp) (r1 : Nat) (C : Arena) :
    (unStep L op r1 C).length = C.length + 1 := by
  unfold unStep
  rw [length_addEdge, arena_length_append]
  rfl

theorem binStep_nval (op : BinOp) (r1 r2 : Nat) (C : Arena) (j : Nat) (hj : j < C.length) :
    nval (binStep op r1 r2 C) j = nval C j := by
  unfold binStep
  rw [nval_addEdge, nval_addEdge, nval_append_lt _ _ _ hj]

theorem unStep_nval (L : ℚ → ℚ) (op : UnOp) (r1 : Nat) (C : Arena) (j : Nat) (hj : j < C.length) :
    nval (unStep L op r1 C) j = nval C j := by
  unfold unStep
  rw [nval_addEdge, nval_append_lt _ _ _ hj]

theorem binStep_nval_new (op : BinOp) (r1 r2 : Nat) (C : Arena) :
    nval (binStep op r1 r2 C) C.length = op.val (nval C r1) (nval C r2) := by
  unfold binStep
  rw [nval_addEdge, nval_addEdge, nval_append_self]

theorem unStep_nval_new (L : ℚ → ℚ) (op : UnOp) (r1 : Nat) (C : Arena) :
    nval (unStep L op r1 C) C.length = op.val L (nval C r1) := by
  unfold unStep
  rw [nval_addEdge, nval_append_self]

theorem binStep_ngrad (op : BinOp) (r1 r2 : Nat) (C : Arena) (j : Nat) (hj : j < C.length) :
    ngrad (binStep op r1 r2 C) j = ngrad C j := by
  unfold binStep
  rw [ngrad_addEdge, ngrad_addEdge, ngrad_append_lt _ _ _ hj]

theorem unStep_ngrad (L : ℚ → ℚ) (op : UnOp) (r1 : Nat) (C : Arena) (j : Nat) (hj : j < C.length) :
    ngrad (unStep L op r1 C) j = ngrad C j := by
  unfold unStep
  rw [ngrad_addEdge, ngrad_append_lt _ _ _ hj]

theorem binStep_ngrad_new (op : BinOp) (r1 r2 : Nat) (C : Arena) :
    ngrad (binStep op r1 r2 C) C.length = none := by
  unfold binStep
  rw [ngrad_addEdge, ngrad_addEdge, ngrad_append_self]

theorem unStep_ngrad_new (L : ℚ → ℚ) (op : UnOp) (r1 : Nat) (C : Arena) :
    ngrad (unStep L op r1 C) C.length = none := by
  unfold unStep
  rw [ngrad_addEdge, ngrad_append_self]

theorem nchild_addEdge_ite (A : Arena) (i j : Nat) (p : ℚ × Nat) (hi : i < A.length) :
    nchild (addEdge A i p) j = nchild A j ++ (if j = i then [p] else []) := by
  rcases eq_or_ne j i with rfl | h
  · rw [if_pos rfl, nchild_addEdge_self _ _ _ hi]
  · rw [if_neg h, nchild_addEdge_ne _ _ _ _ (Ne.symm h), List.append_nil]

theorem binStep_nchild (op : BinOp) (r1 r2 : Nat) (C : Arena) (j : Nat)
    (h1 : r1 < C.length) (h2 : r2 < C.length) (hj : j < C.length) :
    nchild (binStep op r1 r2 C) j = nchild C j ++
      ((if j = r1 then [(op.d1 (nval C r1) (nval C r2), C.length)] else []) ++
        (if j = r2 then [(op.d2 (nval C r1) (nval C r2), C.length)] else [])) := by
  unfold binStep
  rw [nchild_addEdge_ite _ _ _ _
    (by rw [length_addEdge, arena_length_append]; simpa using by omega)]
  rw [nchild_addEdge_ite _ _ _ _
    (by rw [arena_length_append]; simpa using by omega)]
  rw [nchild_append_lt _ _ _ hj, List.append_assoc]

theorem unStep_nchild (L : ℚ → ℚ) (op : UnOp) (r1 : Nat) (C : Arena) (j : Nat)
    (h1 : r1 < C.length) (hj : j < C.length) :
    nchild (unStep L op r1 C) j = nchild C j ++
      (if j = r1 then [(op.d (nval C r1), C.length)] else []) := by
  unfold unStep
  rw [nchild_addEdge_ite _ _ _ _
    (by rw [arena_length_append]; simpa using by omega)]
  rw [nchild_append_lt _ _ _ hj]

theorem binStep_nchild_new (op : BinOp) (r1 r2 : Nat) (C : Arena)
    (h1 : r1 < C.length) (h2 : r2 < C.length) :
    nchild (binStep op r1 r2 C) C.length = [] := by
  unfold binStep
  rw [nchild_addEdge_ne _ _ _ _ (by omega), nchild_addEdge_ne _ _ _ _ (by omega),
    nchild_append_self]

theorem unStep_nchild_new (L : ℚ → ℚ) (op : UnOp) (r1 : Nat) (C : Arena)
    (h1 : r1 < C.length) :
    nchild (unStep L op r1 C) C.length = [] := by
  unfold unStep
  rw [nchild_addEdge_ne _ _ _ _ (by omega), nchild_append_self]

theorem binStep_extends (op : BinOp) (r1 r2 : Nat) (C : Arena)
    (h1 : r1 < C.length) (h2 : r2 < C.length) : Extends C (binStep op r1 r2 C) := by
  refine ⟨?_, ?_, ?_, ?_, ?_, ?_⟩
  · rw [binStep_length]
    omega
  · intro i hi
    exact binStep_nval op r1 r2 C i hi
  · intro i hi
    exact binStep_ngrad op r1 r2 C i hi
  · intro i hi
    refine ⟨(if i = r1 then [(op.d1 (nval C r1) (nval C r2), C.length)] else []) ++
      (if i = r2 then [(op.d2 (nval C r1) (nval C r2), C.length)] else []),
      binStep_nchild op r1 r2 C i h1 h2 hi, ?_⟩
    intro p hp
    have hp2 : p.2 = C.length := by
      rcases List.mem_append.mp hp with h | h
      · split at h
        · rw [List.mem_singleton.mp h]
        · cases h
      · split at h
        · rw [List.mem_singleton.mp h]
        · cases h
    rw [binStep_length, hp2]
    omega
  · intro i hi hilt
    rw [binStep_length] at hilt
    have : i = C.length := by omega
    rw [this]
    exact binStep_ngrad_new op r1 r2 C
  · intro i hi hilt p hp
    rw [binStep_length] at hilt
    have hieq : i = C.length := by omega
    rw [hieq, binStep_nchild_new op r1 r2 C h1 h2] at hp
    cases hp

theorem unStep_extends (L : ℚ → ℚ) (op : UnOp) (r1 : Nat) (C : Arena)
    (h1 : r1 < C.length) : Extends C (unStep L op r1 C) := by
  refine ⟨?_, ?_, ?_, ?_, ?_, ?_⟩
  · rw [unStep_length]
    omega
  · intro i hi
    exact unStep_nval L op r1 C i hi
  · intro i hi
    exact unStep_ngrad L op r1 C i hi
  · intro i hi
    refine ⟨if i = r1 then [(op.d (nval C r1), C.length)] else [],
      unStep_nchild L op r1 C i h1 hi, ?_⟩
    intro p hp
    have hp2 : p.2 = C.length := by
      split at hp
      · rw [List.mem_singleton.mp hp]
      · cases hp
    rw [unStep_length, hp2]
    omega
  · intro i hi hilt
    rw [unStep_length] at hilt
    have : i = C.length := by omega
    rw [this]
    exact unStep_ngrad_new L op r1 C
  · intro i hi hilt p hp
    rw [unStep_length] at hilt
    have hieq : i = C.length := by omega
    rw [hieq, unStep_nchild_new L op r1 C h1] at hp
    cases hp

theorem append_one_extends (A : Arena) (x : RNode) (hc : x.child = [])
    (hg : x.gradient = none) : Extends A (A ++ ([x] : Arena)) := by
  refine ⟨?_, ?_, ?_, ?_, ?_, ?_⟩
  · rw [arena_length_append]
    omega
  · intro i hi
    exact nval_append_lt A _ i hi
  · intro i hi
    exact ngrad_append_lt A _ i hi
  · intro i hi
    exact ⟨[], by rw [List.append_nil, nchild_append_lt A _ i hi], by simp⟩
  · intro i hi hilt
    rw [arena_length_append] at hilt
    have : i = A.length := by simp at hilt; omega
    rw [this, ngrad_append_self, hg]
  · intro i hi hilt p hp
    rw [arena_length_append] at hilt
    have hieq : i = A.length := by simp at hilt; omega
    rw [hieq, nchild_append_self, hc] at hp
    cases hp

/- ### Soundness invariant of the reverse forward pass -/

/-- Everything one successful reverse evaluation of `e` from arena `A`
guarantees: the arena only grows as `Extends` allows, the only old nodes
whose edge lists grow are variable seeds referenced by `e`, and the root
is a fresh node (or the referenced seed for a bare variable) carrying the
mathematical value of `e`. -/
structure EvalOk (L : ℚ → ℚ) (nv : Nat) (V : Nat → ℚ) (e : Expr)
    (A A1 : Arena) (r : Nat) : Prop where
  ext : Extends A A1
  touched : ∀ i, i < A.length → nv ≤ i → nchild A1 i = nchild A i
  root_lt : r < A1.length
  root_var : r < A.length → ∃ j, e = Expr.var j ∧ r = j ∧ A1 = A
  root_fresh : A.length ≤ r → nchild A1 r = [] ∧ ngrad A1 r = none
  root_val : nval A1 r = fval L V e

theorem evalR_sound (L : ℚ → ℚ) (nv : Nat) (V : Nat → ℚ) :
    ∀ (e : Expr) (A : Arena) (r : Nat) (A1 : Arena),
      evalR L e A = .ok (r, A1) → e.boundedB nv = true → nv ≤ A.length →
      (∀ i, i < nv → nval A i = V i) → EvalOk L nv V e A A1 r := by
  intro e
  induction e with
  | const c =>
    intro A r A1 h hb hnv hV
    rw [evalR] at h
    cases h
    refine ⟨append_one_extends A _ rfl rfl, ?_, ?_, ?_, ?_, ?_⟩
    · intro i hi _
      exact nchild_append_lt A _ i hi
    · rw [arena_length_append]
      simp
    · intro hlt
      exact absurd hlt (lt_irrefl _)
    · intro _
      exact ⟨nchild_append_self A _, ngrad_append_self A _⟩
    · rw [nval_append_self]
      rfl
  | var i =>
    intro A r A1 h hb hnv hV
    rw [evalR] at h
    cases h
    rw [Expr.boundedB] at hb
    have hiv : i < nv := of_decide_eq_true hb
    refine ⟨Extends.refl A, fun _ _ _ => rfl, by omega, ?_, ?_, ?_⟩
    · intro _
      exact ⟨i, rfl, rfl, rfl⟩
    · intro hge
      omega
    · rw [hV i hiv]
      rfl
  | bin op a b iha ihb =>
    intro A r A1 h hb hnv hV
    rw [evalR] at h
    split at h
    · cases h
    case _ r1 B ha =>
      split at h
      · cases h
      case _ r2 C hc =>
        rw [Expr.boundedB, Bool.and_eq_true] at hb
        obtain ⟨hba, hbb⟩ := hb
        have Ha := iha A r1 B ha hba hnv hV
        have hnvB : nv ≤ B.length := le_trans hnv Ha.ext.mono
        have hVB : ∀ i, i < nv → nval B i = V i := by
          intro i hi
          rw [Ha.ext.old_val i (lt_of_lt_of_le hi hnv), hV i hi]
        have Hb := ihb B r2 C hc hbb hnvB hVB
        obtain ⟨hok, hr, hA1⟩ := revApplyBin_inv h
        have hr1C : r1 < C.length := lt_of_lt_of_le Ha.root_lt Hb.ext.mono
        have hr2C : r2 < C.length := Hb.root_lt
        have hAB : A.length ≤ B.length := Ha.ext.mono
        have hBC : B.length ≤ C.length := Hb.ext.mono
        have hstep := binStep_extends op r1 r2 C hr1C hr2C
        have hvr1 : nval C r1 = fval L V a := by
          rw [Hb.ext.old_val r1 Ha.root_lt, Ha.root_val]
        have hvr2 : nval C r2 = fval L V b := Hb.root_val
        subst hr hA1
        refine ⟨(Ha.ext.trans Hb.ext).trans hstep, ?_, ?_, ?_, ?_, ?_⟩
        · intro i hi hge
          have hiB : i < B.length := lt_of_lt_of_le hi hAB
          have hiC : i < C.length := lt_of_lt_of_le hiB hBC
          have hir1 : i ≠ r1 := by
            intro heq
            rcases lt_or_ge r1 A.length with hlt | hgel
            · obtain ⟨j, hc1, hc2, _⟩ := Ha.root_var hlt
              rw [hc1, Expr.boundedB] at hba
              have : j < nv := of_decide_eq_true hba
              omega
            · omega
          have hir2 : i ≠ r2 := by
            intro heq
            rcases lt_or_ge r2 B.length with hlt | hgel
            · obtain ⟨j, hc1, hc2, _⟩ := Hb.root_var hlt
              rw [hc1, Expr.boundedB] at hbb
              have : j < nv := of_decide_eq_true hbb
              omega
            · omega
          rw [binStep_nchild op r1 r2 C i hr1C hr2C hiC, if_neg hir1, if_neg hir2,
            List.append_nil, List.append_nil, Hb.touched i hiB hge,
            Ha.touched i hi hge]
        · rw [binStep_length]
          omega
        · intro hlt
          omega
        · intro _
          exact ⟨binStep_nchild_new op r1 r2 C hr1C hr2C, binStep_ngrad_new op r1 r2 C⟩
        · rw [binStep_nval_new, hvr1, hvr2]
          rfl
  | un op a iha =>
    intro A r A1 h hb hnv hV
    rw [evalR] at h
    split at h
    · cases h
    case _ r1 B ha =>
      rw [Expr.boundedB] at hb
      have Ha := iha A r1 B ha hb hnv hV
      obtain ⟨hok, hr, hA1⟩ := revApplyUn_inv h
      have hr1B : r1 < B.length := Ha.root_lt
      have hAB : A.length ≤ B.length := Ha.ext.mono
      have hstep := unStep_extends L op r1 B hr1B
      have hvr1 : nval B r1 = fval L V a := Ha.root_val
      subst hr hA1
      refine ⟨Ha.ext.trans hstep, ?_, ?_, ?_, ?_, ?_⟩
      · intro i hi hge
        have hiB : i < B.length := lt_of_lt_of_le hi hAB
        have hir1 : i ≠ r1 := by
          intro heq
          rcases lt_or_ge r1 A.length with hlt | hgel
          · obtain ⟨j, hc1, hc2, _⟩ := Ha.root_var hlt
            rw [hc1, Expr.boundedB] at hb
            have : j < nv := of_decide_eq_true hb
            omega
          · omega
        rw [unStep_nchild L op r1 B i hr1B hiB, if_neg hir1,
          List.append_nil, Ha.touched i hi hge]
      · rw [unStep_length]
        omega
      · intro hlt
        omega
      · intro _
        exact ⟨unStep_nchild_new L op r1 B hr1B, unStep_ngrad_new L op r1 B⟩
      · rw [unStep_nval_new, hvr1]
        rfl

/- ### Correctness of the backward traversal -/

theorem mem_ite_singleton {c : Prop} [Decidable c] {p q : ℚ × Nat}
    (h : p ∈ (if c then [q] else [])) : p = q := by
  split at h
  · exact List.mem_singleton.mp h
  · cases h

theorem grad_single_edge (Af : Arena) (hwf : WF Af) (i : Nat) (q : ℚ × Nat)
    (hg : ngrad Af i = none) (hc : nchild Af i = [q]) :
    grad Af i = q.1 * grad Af q.2 := by
  rw [grad_of_none Af hwf i hg, hc, esum_single]

/-- The context in which a subterm evaluation `A → A1` with root `r` sits
inside a complete reverse pass whose final arena is `Af`: later stages
preserve all values, never touch the interior nodes created by this
subterm except its root, only append edges (pointing beyond `A1`) to
pre-existing nodes and to the root, and set no gradient other than
possibly the root's. -/
structure Ctx (A A1 Af : Arena) (r : Nat) : Prop where
  lenA : A.length ≤ A1.length
  lenF : A1.length ≤ Af.length
  val : ∀ i, i < A1.length → nval Af i = nval A1 i
  interior : ∀ i, A.length ≤ i → i < A1.length → i ≠ r → nchild Af i = nchild A1 i
  extend : ∀ i, i < A.length ∨ i = r → ∃ ex, nchild Af i = nchild A1 i ++ ex ∧
      ∀ p ∈ ex, A1.length ≤ p.2
  gnone : ∀ i, i < A1.length → i ≠ r → ngrad Af i = none
  wfF : WF Af

/-- Backward-traversal correctness, generalized over the evaluation
context: the edges that evaluating a non-variable subterm `e` adds to any
pre-existing node `j` contribute exactly (j-th partial of `e`) times the
root's gradient to `j`'s backward sum. -/
theorem backprop_aux (L : ℚ → ℚ) (nv : Nat) (V : Nat → ℚ) :
    ∀ (e : Expr) (A : Arena) (r : Nat) (A1 Af : Arena),
      evalR L e A = .ok (r, A1) → e.boundedB nv = true → nv ≤ A.length →
      (∀ i, i < nv → nval A i = V i) → (∀ i, e ≠ Expr.var i) →
      Ctx A A1 Af r →
      ∀ j, j < A.length → ∀ ex, nchild A1 j = nchild A j ++ ex →
        esum Af ex = fpart L V j e * grad Af r := by
  intro e
  induction e with
  | const c =>
    intro A r A1 Af h hb hnv hV hnvar hctx j hj ex hex
    rw [evalR] at h
    cases h
    rw [nchild_append_lt A _ j hj] at hex
    have hexnil : ex = [] := by
      have h0 : nchild A j ++ [] = nchild A j ++ ex := by
        rw [List.append_nil]
        exact hex
      exact (List.append_cancel_left h0).symm
    rw [hexnil, esum_nil]
    unfold fpart flin
    ring
  | var i =>
    intro A r A1 Af h hb hnv hV hnvar hctx j hj ex hex
    exact absurd rfl (hnvar i)
  | bin op a b iha ihb =>
    intro A r A1 Af h hb hnv hV hnvar hctx j hj ex hex
    rw [evalR] at h
    split at h
    · cases h
    case _ r1 B ha =>
      split at h
      · cases h
      case _ r2 C hc =>
        rw [Expr.boundedB, Bool.and_eq_true] at hb
        obtain ⟨hba, hbb⟩ := hb
        have Ha := evalR_sound L nv V a A r1 B ha hba hnv hV
        have hnvB : nv ≤ B.length := le_trans hnv Ha.ext.mono
        have hVB : ∀ i, i < nv → nval B i = V i := by
          intro i hi
          rw [Ha.ext.old_val i (lt_of_lt_of_le hi hnv), hV i hi]
        have Hb := evalR_sound L nv V b B r2 C hc hbb hnvB hVB
        obtain ⟨hok, hr, hA1⟩ := revApplyBin_inv h
        have hr1B : r1 < B.length := Ha.root_lt
        have hr1C : r1 < C.length := lt_of_lt_of_le hr1B Hb.ext.mono
        have hr2C : r2 < C.length := Hb.root_lt
        have hAB : A.length ≤ B.length := Ha.ext.mono
        have hBC : B.length ≤ C.length := Hb.ext.mono
        have hvr1 : nval C r1 = fval L V a := by
          rw [Hb.ext.old_val r1 hr1B, Ha.root_val]
        have hvr2 : nval C r2 = fval L V b := Hb.root_val
        subst hr hA1
        -- decompose the edges added to node j
        obtain ⟨ex1, hex1, hx1⟩ := Ha.ext.old_child j hj
        obtain ⟨ex2, hex2, hx2⟩ := Hb.ext.old_child j (lt_of_lt_of_le hj hAB)
        have hjC : j < C.length := lt_of_lt_of_le hj (le_trans hAB hBC)
        have hchA1 : nchild (binStep op r1 r2 C) j = nchild A j ++
            (ex1 ++ (ex2 ++
              ((if j = r1 then [(op.d1 (nval C r1) (nval C r2), C.length)] else []) ++
               (if j = r2 then [(op.d2 (nval C r1) (nval C r2), C.length)] else [])))) := by
          rw [binStep_nchild op r1 r2 C j hr1C hr2C hjC, hex2, hex1,
            List.append_assoc, List.append_assoc]
        have hexeq : ex = ex1 ++ (ex2 ++
            ((if j = r1 then [(op.d1 (nval C r1) (nval C r2), C.length)] else []) ++
             (if j = r2 then [(op.d2 (nval C r1) (nval C r2), C.length)] else []))) := by
          have h0 : nchild A j ++ ex = nchild A j ++ (ex1 ++ (ex2 ++
              ((if j = r1 then [(op.d1 (nval C r1) (nval C r2), C.length)] else []) ++
               (if j = r2 then [(op.d2 (nval C r1) (nval C r2), C.length)] else [])))) := by
            rw [← hex, hchA1]
          exact List.append_cancel_left h0
        -- lengths and basic context facts
        have hlen1 : (binStep op r1 r2 C).length = C.length + 1 :=
          binStep_length op r1 r2 C
        have hkne : ∀ i, i < C.length → i ≠ C.length := by
          intro i hi
          omega
        -- whether b's root can coincide with indices below B.length
        have hr2low : ∀ i, i < B.length → nv ≤ i → i ≠ r2 := by
          intro i hiB hge heq
          rcases lt_or_ge r2 B.length with hlt2 | hge2
          · obtain ⟨j2, hj2, hj3, _⟩ := Hb.root_var hlt2
            rw [hj2, Expr.boundedB] at hbb
            have : j2 < nv := of_decide_eq_true hbb
            omega
          · omega
        -- contribution of operand a
        have hS1 : esum Af ex1 + esum Af
            (if j = r1 then [(op.d1 (nval C r1) (nval C r2), C.length)] else []) =
            fpart L V j a * (op.d1 (nval C r1) (nval C r2) * grad Af C.length) := by
          by_cases hav : ∃ j0, a = Expr.var j0
          · obtain ⟨j0, rfl⟩ := hav
            rw [evalR] at ha
            have h0 : (j0, A) = (r1, B) := Except.ok.inj ha
            have hr1e : r1 = j0 := (congrArg Prod.fst h0).symm
            have hBA : B = A := (congrArg Prod.snd h0).symm
            rw [hBA] at hex1
            have hex1nil : ex1 = [] := by
              have h1 : nchild A j ++ [] = nchild A j ++ ex1 := by
                rw [List.append_nil]
                exact hex1
              exact (List.append_cancel_left h1).symm
            rw [hex1nil, esum_nil, hr1e]
            by_cases hjj : j = j0
            · rw [if_pos hjj, esum_single]
              unfold fpart flin
              rw [if_pos hjj.symm]
              ring
            · rw [if_neg hjj]
              unfold fpart flin
              rw [if_neg (fun hh => hjj hh.symm), esum_nil]
              ring
          · have hnvara : ∀ i, a ≠ Expr.var i := by
              intro i hi
              exact hav ⟨i, hi⟩
            have hge : A.length ≤ r1 := by
              rcases lt_or_ge r1 A.length with hlt | hge
              · obtain ⟨j0, hj0, _, _⟩ := Ha.root_var hlt
                exact absurd hj0 (hnvara j0)
              · exact hge
            have hjr1 : j ≠ r1 := by omega
            have hr1r2 : r1 ≠ r2 := hr2low r1 hr1B (le_trans hnv hge)
            have hgn1 : ngrad Af r1 = none :=
              hctx.gnone r1 (by rw [hlen1]; omega) (hkne r1 hr1C)
            have hchr1 : nchild Af r1 =
                [(op.d1 (nval C r1) (nval C r2), C.length)] := by
              rw [hctx.interior r1 hge (by rw [hlen1]; omega) (hkne r1 hr1C),
                binStep_nchild op r1 r2 C r1 hr1C hr2C hr1C, if_pos rfl,
                if_neg hr1r2, List.append_nil,
                Hb.touched r1 hr1B (le_trans hnv hge), (Ha.root_fresh hge).1,
                List.nil_append]
            have hgrad1 : grad Af r1 =
                op.d1 (nval C r1) (nval C r2) * grad Af C.length :=
              grad_single_edge Af hctx.wfF r1 _ hgn1 hchr1
            have hctxA : Ctx A B Af r1 := by
              refine ⟨hAB, ?_, ?_, ?_, ?_, ?_, hctx.wfF⟩
              · have := hctx.lenF
                rw [hlen1] at this
                omega
              · intro i hi
                rw [hctx.val i (by rw [hlen1]; omega),
                  binStep_nval op r1 r2 C i (by omega), Hb.ext.old_val i hi]
              · intro i hiA hiB hir1
                rw [hctx.interior i hiA (by rw [hlen1]; omega) (hkne i (by omega)),
                  binStep_nchild op r1 r2 C i hr1C hr2C (by omega), if_neg hir1,
                  if_neg (hr2low i hiB (le_trans hnv hiA)), List.append_nil,
                  List.append_nil, Hb.touched i hiB (le_trans hnv hiA)]
              · intro i hi
                rcases hi with hiA | hieq
                · obtain ⟨exf, hexf, hxf⟩ := hctx.extend i (Or.inl hiA)
                  obtain ⟨exb, hexb, hxb⟩ := Hb.ext.old_child i (by omega)
                  refine ⟨exb ++
                    (((if i = r1 then [(op.d1 (nval C r1) (nval C r2), C.length)] else []) ++
                      (if i = r2 then [(op.d2 (nval C r1) (nval C r2), C.length)] else [])) ++
                      exf), ?_, ?_⟩
                  · rw [hexf, binStep_nchild op r1 r2 C i hr1C hr2C (by omega), hexb,
                      List.append_assoc, List.append_assoc]
                  · intro p hp
                    rcases List.mem_append.mp hp with hp1 | hp2
                    · exact (hxb p hp1).1
                    · rcases List.mem_append.mp hp2 with hp3 | hp4
                      · rcases List.mem_append.mp hp3 with hp5 | hp6
                        · rw [mem_ite_singleton hp5]
                          exact hBC
                        · rw [mem_ite_singleton hp6]
                          exact hBC
                      · have := hxf p hp4
                        rw [hlen1] at this
                        omega
                · rw [hieq]
                  refine ⟨[(op.d1 (nval C r1) (nval C r2), C.length)], ?_, ?_⟩
                  · rw [hchr1, (Ha.root_fresh hge).1, List.nil_append]
                  · intro p hp
                    rw [List.mem_singleton.mp hp]
                    exact hBC
              · intro i hi hir1
                exact hctx.gnone i (by rw [hlen1]; omega) (hkne i (by omega))
            have hIH := iha A r1 B Af ha hba hnv hV hnvara hctxA j hj ex1 hex1
            rw [if_neg hjr1, esum_nil, hIH, hgrad1]
            ring
        -- contribution of operand b
        have hS2 : esum Af ex2 + esum Af
            (if j = r2 then [(op.d2 (nval C r1) (nval C r2), C.length)] else []) =
            fpart L V j b * (op.d2 (nval C r1) (nval C r2) * grad Af C.length) := by
          by_cases hbv : ∃ j2, b = Expr.var j2
          · obtain ⟨j2, rfl⟩ := hbv
            rw [evalR] at hc
            have h0 : (j2, B) = (r2, C) := Except.ok.inj hc
            have hr2e : r2 = j2 := (congrArg Prod.fst h0).symm
            have hCB : C = B := (congrArg Prod.snd h0).symm
            rw [hCB] at hex2
            have hex2nil : ex2 = [] := by
              have h1 : nchild B j ++ [] = nchild B j ++ ex2 := by
                rw [List.append_nil]
                exact hex2
              exact (List.append_cancel_left h1).symm
            rw [hex2nil, esum_nil, hr2e]
            by_cases hjj : j = j2
            · rw [if_pos hjj, esum_single]
              unfold fpart flin
              rw [if_pos hjj.symm]
              ring
            · rw [if_neg hjj]
              unfold fpart flin
              rw [if_neg (fun hh => hjj hh.symm), esum_nil]
              ring
          · have hnvarb : ∀ i, b ≠ Expr.var i := by
              intro i hi
              exact hbv ⟨i, hi⟩
            have hge2 : B.length ≤ r2 := by
              rcases lt_or_ge r2 B.length with hlt | hge
              · obtain ⟨j2, hj2, _, _⟩ := Hb.root_var hlt
                exact absurd hj2 (hnvarb j2)
              · exact hge
            have hjr2 : j ≠ r2 := by omega
            have hr2r1 : r2 ≠ r1 := by omega
            have hgn2 : ngrad Af r2 = none :=
              hctx.gnone r2 (by rw [hlen1]; omega) (hkne r2 hr2C)
            have hchr2 : nchild Af r2 =
                [(op.d2 (nval C r1) (nval C r2), C.length)] := by
              rw [hctx.interior r2 (by omega) (by rw [hlen1]; omega) (hkne r2 hr2C),
                binStep_nchild op r1 r2 C r2 hr1C hr2C hr2C, if_neg hr2r1,
                if_pos rfl, List.nil_append, (Hb.root_fresh hge2).1, List.nil_append]
            have hgrad2 : grad Af r2 =
                op.d2 (nval C r1) (nval C r2) * grad Af C.length :=
              grad_single_edge Af hctx.wfF r2 _ hgn2 hchr2
            have hctxB : Ctx B C Af r2 := by
              refine ⟨hBC, ?_, ?_, ?_, ?_, ?_, hctx.wfF⟩
              · have := hctx.lenF
                rw [hlen1] at this
                omega
              · intro i hi
                rw [hctx.val i (by rw [hlen1]; omega),
                  binStep_nval op r1 r2 C i hi]
              · intro i hiB hiC hir2
                rw [hctx.interior i (by omega) (by rw [hlen1]; omega) (hkne i hiC),
                  binStep_nchild op r1 r2 C i hr1C hr2C hiC,
                  if_neg (by omega : i ≠ r1), if_neg hir2, List.append_nil,
                  List.append_nil]
              · intro i hi
                rcases hi with hiB | hieq
                · rcases lt_or_ge i A.length with hiA | hiA
                  · obtain ⟨exf, hexf, hxf⟩ := hctx.extend i (Or.inl hiA)
                    refine ⟨((if i = r1 then [(op.d1 (nval C r1) (nval C r2), C.length)] else []) ++
                        (if i = r2 then [(op.d2 (nval C r1) (nval C r2), C.length)] else [])) ++
                        exf, ?_, ?_⟩
                    · rw [hexf, binStep_nchild op r1 r2 C i hr1C hr2C (by omega),
                        List.append_assoc]
                    · intro p hp
                      rcases List.mem_append.mp hp with hp1 | hp2
                      · rcases List.mem_append.mp hp1 with hp3 | hp4
                        · rw [mem_ite_singleton hp3]
                        · rw [mem_ite_singleton hp4]
                      · have := hxf p hp2
                        rw [hlen1] at this
                        omega
                  · refine ⟨(if i = r1 then [(op.d1 (nval C r1) (nval C r2), C.length)] else []) ++
                        (if i = r2 then [(op.d2 (nval C r1) (nval C r2), C.length)] else []), ?_, ?_⟩
                    · rw [hctx.interior i hiA (by rw [hlen1]; omega) (hkne i (by omega)),
                        binStep_nchild op r1 r2 C i hr1C hr2C (by omega)]
                    · intro p hp
                      rcases List.mem_append.mp hp with hp1 | hp2
                      · rw [mem_ite_singleton hp1]
                      · rw [mem_ite_singleton hp2]
                · rw [hieq]
                  refine ⟨[(op.d2 (nval C r1) (nval C r2), C.length)], ?_, ?_⟩
                  · rw [hchr2, (Hb.root_fresh hge2).1, List.nil_append]
                  · intro p hp
                    rw [List.mem_singleton.mp hp]
              · intro i hi hir2
                exact hctx.gnone i (by rw [hlen1]; omega) (hkne i hi)
            have hIH := ihb B r2 C Af hc hbb hnvB hVB hnvarb hctxB j
              (lt_of_lt_of_le hj hAB) ex2 hex2
            rw [if_neg hjr2, esum_nil, hIH, hgrad2]
            ring
        -- assemble
        rw [hexeq, esum_append, esum_append, esum_append]
        have hgoal : esum Af ex1 + (esum Af ex2 +
            (esum Af (if j = r1 then [(op.d1 (nval C r1) (nval C r2), C.length)] else []) +
             esum Af (if j = r2 then [(op.d2 (nval C r1) (nval C r2), C.length)] else []))) =
            (esum Af ex1 + esum Af
              (if j = r1 then [(op.d1 (nval C r1) (nval C r2), C.length)] else [])) +
            (esum Af ex2 + esum Af
              (if j = r2 then [(op.d2 (nval C r1) (nval C r2), C.length)] else [])) := by
          ring
        rw [hgoal, hS1, hS2]
        unfold fpart
        rw [flin, hvr1, hvr2]
        ring
  | un op a iha =>
    intro A r A1 Af h hb hnv hV hnvar hctx j hj ex hex
    rw [evalR] at h
    split at h
    · cases h
    case _ r1 B ha =>
      rw [Expr.boundedB] at hb
      have Ha := evalR_sound L nv V a A r1 B ha hb hnv hV
      obtain ⟨hok, hr, hA1⟩ := revApplyUn_inv h
      have hr1B : r1 < B.length := Ha.root_lt
      have hAB : A.length ≤ B.length := Ha.ext.mono
      have hvr1 : nval B r1 = fval L V a := Ha.root_val
      subst hr hA1
      obtain ⟨ex1, hex1, hx1⟩ := Ha.ext.old_child j hj
      have hlen1 : (unStep L op r1 B).length = B.length + 1 :=
        unStep_length L op r1 B
      have hkne : ∀ i, i < B.length → i ≠ B.length := by
        intro i hi
        omega
      have hchA1 : nchild (unStep L op r1 B) j = nchild A j ++
          (ex1 ++ (if j = r1 then [(op.d (nval B r1), B.length)] else [])) := by
        rw [unStep_nchild L op r1 B j hr1B (by omega), hex1, List.append_assoc]
      have hexeq : ex = ex1 ++ (if j = r1 then [(op.d (nval B r1), B.length)] else []) := by
        have h0 : nchild A j ++ ex = nchild A j ++
            (ex1 ++ (if j = r1 then [(op.d (nval B r1), B.length)] else [])) := by
          rw [← hex, hchA1]
        exact List.append_cancel_left h0
      have hS1 : esum Af ex1 + esum Af
          (if j = r1 then [(op.d (nval B r1), B.length)] else []) =
          fpart L V j a * (op.d (nval B r1) * grad Af B.length) := by
        by_cases hav : ∃ j0, a = Expr.var j0
        · obtain ⟨j0, rfl⟩ := hav
          rw [evalR] at ha
          have h0 : (j0, A) = (r1, B) := Except.ok.inj ha
          have hr1e : r1 = j0 := (congrArg Prod.fst h0).symm
          have hBA : B = A := (congrArg Prod.snd h0).symm
          rw [hBA] at hex1
          have hex1nil : ex1 = [] := by
            have h1 : nchild A j ++ [] = nchild A j ++ ex1 := by
              rw [List.append_nil]
              exact hex1
            exact (List.append_cancel_left h1).symm
          rw [hex1nil, esum_nil, hr1e]
          by_cases hjj : j = j0
          · rw [if_pos hjj, esum_single]
            unfold fpart flin
            rw [if_pos hjj.symm]
            ring
          · rw [if_neg hjj]
            unfold fpart flin
            rw [if_neg (fun hh => hjj hh.symm), esum_nil]
            ring
        · have hnvara : ∀ i, a ≠ Expr.var i := by
            intro i hi
            exact hav ⟨i, hi⟩
          have hge : A.length ≤ r1 := by
            rcases lt_or_ge r1 A.length with hlt | hge
            · obtain ⟨j0, hj0, _, _⟩ := Ha.root_var hlt
              exact absurd hj0 (hnvara j0)
            · exact hge
          have hjr1 : j ≠ r1 := by omega
          have hgn1 : ngrad Af r1 = none :=
            hctx.gnone r1 (by rw [hlen1]; omega) (hkne r1 hr1B)
          have hchr1 : nchild Af r1 = [(op.d (nval B r1), B.length)] := by
            rw [hctx.interior r1 hge (by rw [hlen1]; omega) (hkne r1 hr1B),
              unStep_nchild L op r1 B r1 hr1B hr1B, if_pos rfl,
              (Ha.root_fresh hge).1, List.nil_append]
          have hgrad1 : grad Af r1 = op.d (nval B r1) * grad Af B.length :=
            grad_single_edge Af hctx.wfF r1 _ hgn1 hchr1
          have hctxA : Ctx A B Af r1 := by
            refine ⟨hAB, ?_, ?_, ?_, ?_, ?_, hctx.wfF⟩
            · have := hctx.lenF
              rw [hlen1] at this
              omega
            · intro i hi
              rw [hctx.val i (by rw [hlen1]; omega), unStep_nval L op r1 B i hi]
            · intro i hiA hiB hir1
              rw [hctx.interior i hiA (by rw [hlen1]; omega) (hkne i hiB),
                unStep_nchild L op r1 B i hr1B hiB, if_neg hir1, List.append_nil]
            · intro i hi
              rcases hi with hiA | hieq
              · obtain ⟨exf, hexf, hxf⟩ := hctx.extend i (Or.inl hiA)
                refine ⟨(if i = r1 then [(op.d (nval B r1), B.length)] else []) ++ exf,
                  ?_, ?_⟩
                · rw [hexf, unStep_nchild L op r1 B i hr1B (by omega),
                    List.append_assoc]
                · intro p hp
                  rcases List.mem_append.mp hp with hp1 | hp2
                  · rw [mem_ite_singleton hp1]
                  · have := hxf p hp2
                    rw [hlen1] at this
                    omega
              · rw [hieq]
                refine ⟨[(op.d (nval B r1), B.length)], ?_, ?_⟩
                · rw [hchr1, (Ha.root_fresh hge).1, List.nil_append]
                · intro p hp
                  rw [List.mem_singleton.mp hp]
            · intro i hi hir1
              exact hctx.gnone i (by rw [hlen1]; omega) (hkne i hi)
          have hIH := iha A r1 B Af ha hb hnv hV hnvara hctxA j hj ex1 hex1
          rw [if_neg hjr1, esum_nil, hIH, hgrad1]
          ring
      rw [hexeq, esum_append, hS1]
      unfold fpart
      rw [flin, hvr1]
      ring

theorem wf_setGrad (A : Arena) (i : Nat) (g : ℚ) (h : WF A) : WF (setGrad A i g) := by
  intro k hk p hp
  rw [length_setGrad] at hk
  rw [nchild_setGrad] at hp
  rw [length_setGrad]
  exact h k hk p hp

/-- Modelled from the spec: the reverse engine's single-function pass on
seed nodes: after evaluating `e` and seeding the output's gradient to 1,
the backward traversal at seed `j` returns exactly the j-th partial
derivative of `e` at the seed values (spec section 4.2's backward
traversal contract). -/
theorem reverse_grad_correct (L : ℚ → ℚ) (e : Expr) (xs : List ℚ) (r : Nat) (A1 : Arena)
    (hb : e.boundedB xs.length = true)
    (h : evalR L e (seedArena xs) = .ok (r, A1)) :
    ∀ j, j < xs.length →
      grad (setGrad A1 r 1) j = fpart L (fun i => xs.getD i 0) j e := by
  intro j hj
  have hlen0 : (seedArena xs).length = xs.length := seedArena_length xs
  by_cases hv : ∃ i, e = Expr.var i
  · obtain ⟨j0, rfl⟩ := hv
    rw [evalR] at h
    have h0 : (j0, seedArena xs) = (r, A1) := Except.ok.inj h
    have hre : r = j0 := (congrArg Prod.fst h0).symm
    have hA1e : A1 = seedArena xs := (congrArg Prod.snd h0).symm
    rw [Expr.boundedB] at hb
    have hj0 : j0 < xs.length := of_decide_eq_true hb
    rw [hre, hA1e]
    have hwf : WF (setGrad (seedArena xs) j0 1) :=
      wf_setGrad _ _ _ (seedArena_wf xs)
    by_cases hjj : j = j0
    · rw [hjj, grad_of_some _ hwf j0 1
        (ngrad_setGrad_self _ _ _ (by rw [hlen0]; omega))]
      unfold fpart flin
      rw [if_pos rfl]
    · rw [grad_of_none _ hwf j
        (by rw [ngrad_setGrad_ne _ _ _ _ (fun hh => hjj hh.symm), seedArena_ngrad]),
        nchild_setGrad, seedArena_nchild, esum_nil]
      unfold fpart flin
      rw [if_neg (fun hh => hjj hh.symm)]
  · have hnvar : ∀ i, e ≠ Expr.var i := by
      intro i hi
      exact hv ⟨i, hi⟩
    have hV : ∀ i, i < xs.length → nval (seedArena xs) i = xs.getD i 0 := by
      intro i hi
      exact seedArena_nval xs i hi
    have hnv : xs.length ≤ (seedArena xs).length := by
      rw [hlen0]
    have Es := evalR_sound L xs.length (fun i => xs.getD i 0) e (seedArena xs) r A1
      h hb hnv hV
    have hge : (seedArena xs).length ≤ r := by
      rcases lt_or_ge r (seedArena xs).length with hlt | hge
      · obtain ⟨i, hi, _, _⟩ := Es.root_var hlt
        exact absurd hi (hnvar i)
      · exact hge
    have hwf1 : WF A1 := Es.ext.wf (seedArena_wf xs)
    have hwf : WF (setGrad A1 r 1) := wf_setGrad _ _ _ hwf1
    have hctx : Ctx (seedArena xs) A1 (setGrad A1 r 1) r := by
      refine ⟨Es.ext.mono, ?_, ?_, ?_, ?_, ?_, hwf⟩
      · rw [length_setGrad]
      · intro i _
        exact nval_setGrad A1 r i 1
      · intro i _ _ _
        exact nchild_setGrad A1 r i 1
      · intro i _
        exact ⟨[], by rw [List.append_nil, nchild_setGrad], by simp⟩
      · intro i hi hir
        rw [ngrad_setGrad_ne _ _ _ _ (fun hh => hir hh.symm)]
        rcases lt_or_ge i (seedArena xs).length with hlow | hhigh
        · rw [Es.ext.old_grad i hlow, seedArena_ngrad]
        · exact Es.ext.new_grad i hhigh hi
    obtain ⟨exj, hexj, _⟩ := Es.ext.old_child j (by rw [hlen0]; omega)
    have hmain := backprop_aux L xs.length (fun i => xs.getD i 0) e (seedArena xs)
      r A1 (setGrad A1 r 1) h hb hnv hV hnvar hctx j (by rw [hlen0]; omega) exj hexj
    have hgr : grad (setGrad A1 r 1) r = 1 :=
      grad_of_some _ hwf r 1 (ngrad_setGrad_self _ _ _ Es.root_lt)
    have hjr : j ≠ r := by
      rw [hlen0] at hge
      omega
    have hgj : grad (setGrad A1 r 1) j = esum (setGrad A1 r 1) exj := by
      rw [grad_of_none _ hwf j
        (by rw [ngrad_setGrad_ne _ _ _ _ (fun hh => hjr hh.symm)]
            rcases lt_or_ge j A1.length with hlow | hhigh
            · rcases lt_or_ge j (seedArena xs).length with h2 | h2
              · rw [Es.ext.old_grad j h2, seedArena_ngrad]
              · exact Es.ext.new_grad j h2 hlow
            · exact ngrad_out A1 j hhigh),
        nchild_setGrad, hexj, seedArena_nchild, List.nil_append]
    rw [hgj, hmain, hgr, mul_one]

/- ### The driver layer: `interface.py` -/

/-- One element of `AutoDiff.jacobian` / `ReverseAD.jacobian`: the Python
lists mix plain floats (appended by the single-variable branches) and
row lists (appended by the multi-variable branches). -/
inductive Entry where
  | num : ℚ → Entry
  | row : List ℚ → Entry
deriving DecidableEq

/-- `AutoDiff.__init__`, lines 107-110: the forward trace, one
`DualNumber(float(variable), 1)` per variable. -/
def adTrace (xs : List ℚ) : List DualNumber := xs.map (fun v => ⟨v, 1⟩)

/-- `AutoDiff._compute`, lines 156-160 (multi-variable branch): the
per-coordinate passes.  For coordinate `i` the code builds
`y = [DualNumber(0, 0)] * n; y[i] = self.trace[i]` — note the other
coordinates keep primal 0, not their supplied values — and records
`f(y).dual`. -/
def adTangents (L : ℚ → ℚ) (n : Nat) (trace : List DualNumber) (f : Expr) :
    List Nat → Except PyError (List ℚ)
  | [] => .ok []
  | i :: is =>
    match evalF L ((List.replicate n (⟨0, 0⟩ : DualNumber)).set i
        (trace.getD i ⟨0, 0⟩)) f with
    | .error err => .error err
    | .ok dp =>
      match adTangents L n trace f is with
      | .error err => .error err
      | .ok rest => .ok (dp.dual :: rest)

/-- `AutoDiff._compute`, lines 147-169, for one function: the
single-variable branch records `f(self.trace[0])`'s primal and dual (the
dual appended as a bare scalar); the multi-variable branch records the
primal of `f(self.trace)` and the list of per-coordinate duals. -/
def adComputeOne (L : ℚ → ℚ) (xs : List ℚ) (trace : List DualNumber) (f : Expr) :
    Except PyError (ℚ × Entry) :=
  if xs.length = 1 then
    match evalF L [trace.getD 0 ⟨0, 0⟩] f with
    | .error err => .error err
    | .ok value => .ok (value.real, .num value.dual)
  else
    match evalF L trace f with
    | .error err => .error err
    | .ok value =>
      match adTangents L xs.length trace f (List.range xs.length) with
      | .error err => .error err
      | .ok tangents => .ok (value.real, .row tangents)

/-- The loop of `AutoDiff._compute` over all passed functions. -/
def adComputeList (L : ℚ → ℚ) (xs : List ℚ) (trace : List DualNumber) :
    List Expr → Except PyError (List (ℚ × Entry))
  | [] => .ok []
  | f :: fs =>
    match adComputeOne L xs trace f with
    | .error err => .error err
    | .ok pe =>
      match adComputeList L xs trace fs with
      | .error err => .error err
      | .ok rest => .ok (pe :: rest)

/-- `AutoDiff.__init__` + `_compute` after argument normalization:
returns (`self.primal`, `self.jacobian`); a Python exception anywhere
aborts construction. -/
def autodiff_compute (L : ℚ → ℚ) (fs : List Expr) (xs : List ℚ) :
    Except PyError (List ℚ × List Entry) :=
  match adComputeList L xs (adTrace xs) fs with
  | .error err => .error err
  | .ok rs => .ok (rs.map Prod.fst, rs.map Prod.snd)

/-- The function argument as the user passes it: a bare callable or a
list/ndarray of callables. -/
inductive FArg where
  | single : Expr → FArg
  | arr : List Expr → FArg
deriving DecidableEq

/-- The variable argument as the user passes it: a bare int/float or a
list/ndarray of numbers. -/
inductive VarArg where
  | scalar : ℚ → VarArg
  | arr : List ℚ → VarArg
deriving DecidableEq

/-- `AutoDiff.__init__`, lines 94-97: a bare callable is wrapped into a
one-element array, a list/ndarray is kept. -/
def adNormalizeF : FArg → List Expr
  | .single f => [f]
  | .arr fs => fs

/-- `AutoDiff.__init__`, lines 87-90: a bare number is wrapped into a
one-element array, a list/ndarray is kept. -/
def adNormalizeVar : VarArg → List ℚ
  | .scalar x => [x]
  | .arr xs => xs

/-- The whole forward construction `AutoDiff(f, var_list)`. -/
def autodiff_init (L : ℚ → ℚ) (f : FArg) (v : VarArg) :
    Except PyError (List ℚ × List Entry) :=
  autodiff_compute L (adNormalizeF f) (adNormalizeVar v)

/-- Python error messages raised by `ReverseAD._compute` (lines 311, 330)
and by `len()` on a function object. -/
def msgLen : String := "object of type function has no len()"

/-- `ReverseAD._compute`, line 311. -/
def msgMulti : String := "For multiple functions, variable(s) must be input as numpy array"

/-- `ReverseAD._compute`, line 330. -/
def msgEmpty : String := "Variable list cannot be empty!"

/-- `ReverseAD.get_primal`, line 333. -/
def msgPrimal : String := "Reverse AutoDiff does not track primal trace."

/-- The observable state of a constructed `ReverseAD` instance:
whether `var_list` was a bare number, `self.jacobian`, and
`self.jacobian_single`. -/
structure RState where
  varScalar : Bool
  jacobian : List Entry
  jacobian_single : ℚ
deriving DecidableEq

/-- One fresh-seed reverse pass (`ReverseAD._compute`, lines 305-308 and
314-318): `x = ReverseMode(float(v)); z = f(x); z.gradient = 1.0;
x.grad()`. -/
def radPassFresh (L : ℚ → ℚ) (f : Expr) (x : ℚ) : Except PyError ℚ :=
  match evalR L f (seedArena [x]) with
  | .error err => .error err
  | .ok (r, A1) => .ok (grad (setGrad A1 r 1) 0)

/-- The loop of the `len(var_list) == 1` branch over all functions. -/
def radScalarList (L : ℚ → ℚ) (x : ℚ) : List Expr → Except PyError (List ℚ)
  | [] => .ok []
  | f :: fs =>
    match radPassFresh L f x with
    | .error err => .error err
    | .ok g =>
      match radScalarList L x fs with
      | .error err => .error err
      | .ok rest => .ok (g :: rest)

/-- `ReverseAD._compute`, lines 325-327: `trace.child = [];
trace.gradient = None` for every seed node.  The interior nodes of the
previous pass become unreachable Python objects (garbage collected), so
the model drops them from the arena. -/
def resetSeeds (n : Nat) (A : Arena) : Arena :=
  (A.take n).map (fun nd => ⟨nd.value, [], none⟩)

/-- One pass of the `len(var_list) > 1` branch (`ReverseAD._compute`,
lines 321-327) on the shared seed trace: evaluate `z = f(self.trace)`,
seed `z.gradient = 1.0`, read `[t.grad() for t in self.trace]`, then
reset every seed node. -/
def radPassShared (L : ℚ → ℚ) (n : Nat) (f : Expr) (A : Arena) :
    Except PyError (List ℚ × Arena) :=
  match evalR L f A with
  | .error err => .error err
  | .ok (r, A1) =>
    .ok ((List.range n).map (grad (setGrad A1 r 1)), resetSeeds n (setGrad A1 r 1))

/-- The loop of the `len(var_list) > 1` branch over all functions,
threading the shared (and reset) seed nodes. -/
def radComputeMulti (L : ℚ → ℚ) (n : Nat) : List Expr → Arena →
    Except PyError (List (List ℚ))
  | [], _ => .ok []
  | f :: fs, A =>
    match radPassShared L n f A with
    | .error err => .error err
    | .ok (row, A2) =>
      match radComputeMulti L n fs A2 with
      | .error err => .error err
      | .ok rows => .ok (row :: rows)

/-- `ReverseAD.__init__` + `_compute` (lines 282-330).  The branch
structure mirrors the Python `if` chain: a bare-number `var_list` takes
the `isinstance` branch; otherwise `len(var_list)` selects the
single-variable, multi-variable, or empty (error) branch.  Taking
`len(self.f)` of a bare callable raises `TypeError`. -/
def reverseCompute (L : ℚ → ℚ) (f : FArg) (v : VarArg) : Except PyError RState :=
  match v with
  | .scalar x =>
    match f with
    | .single _ => .error (.typeError msgLen)
    | .arr fs =>
      if fs.length = 1 then
        match radPassFresh L (fs.getD 0 (.const 0)) x with
        | .error err => .error err
        | .ok g => .ok ⟨true, [], g⟩
      else .error (.typeError msgMulti)
  | .arr xs =>
    if xs.length = 1 then
      match f with
      | .single _ => .error (.typeError msgLen)
      | .arr fs =>
        match radScalarList L (xs.getD 0 0) fs with
        | .error err => .error err
        | .ok gs => .ok ⟨false, gs.map .num, 0⟩
    else if 1 < xs.length then
      match f with
      | .single _ => .error (.typeError msgLen)
      | .arr fs =>
        match radComputeMulti L xs.length fs (seedArena xs) with
        | .error err => .error err
        | .ok rows => .ok ⟨false, rows.map .row, 0⟩
    else .error (.typeError msgEmpty)

/-- `np.array(jagged).flatten().tolist()` on the jacobian container
(`ReverseAD.get_jacobian`, lines 339-340): scalars stay, rows are
concatenated. -/
def flattenJag : List Entry → List ℚ
  | [] => []
  | .num q :: t => q :: flattenJag t
  | .row l :: t => l ++ flattenJag t

/-- `ReverseAD.get_jacobian` (lines 335-341): for a bare-number
`var_list` return `self.jacobian_single`; otherwise flatten
`self.jacobian`, store the flattened list back into `self.jacobian`,
and return it. -/
def rad_get_jacobian (s : RState) : Entry × RState :=
  if s.varScalar then (.num s.jacobian_single, s)
  else (.row (flattenJag s.jacobian),
    { s with jacobian := (flattenJag s.jacobian).map .num })

/-- `ReverseAD.get_primal` (lines 332-333): unconditionally raises
`NotImplementedError`. -/
def rad_get_primal (_s : RState) : Except PyError (List ℚ) :=
  .error (.notImplementedError msgPrimal)

/- ### Helper lemmas for the claims -/

theorem flattenJag_map_num (l : List ℚ) : flattenJag (l.map .num) = l := by
  induction l with
  | nil => rfl
  | cons q t ih =>
    rw [List.map_cons, flattenJag, ih]

/-- After one shared-trace pass from the fresh seed arena, the reset at
the end of the pass restores exactly the fresh seed arena: edge lists
cleared, gradients unset, values untouched (Python also garbage-collects
the now unreachable interior nodes). -/
theorem reset_after_pass (L : ℚ → ℚ) (xs : List ℚ) (f : Expr)
    (hb : f.boundedB xs.length = true) (row : List ℚ) (A2 : Arena)
    (h : radPassShared L xs.length f (seedArena xs) = .ok (row, A2)) :
    A2 = seedArena xs := by
  rw [radPassShared] at h
  split at h
  · cases h
  case _ r A1 he =>
    cases h
    have Es := evalR_sound L xs.length (fun i => xs.getD i 0) f (seedArena xs) r A1
      he hb (by rw [seedArena_length]) (fun i hi => seedArena_nval xs i hi)
    have hlen : xs.length ≤ A1.length := by
      have := Es.ext.mono
      rw [seedArena_length] at this
      exact this
    unfold resetSeeds
    apply List.ext_getElem
    · rw [List.length_map, List.length_take, length_setGrad, seedArena_length]
      omega
    · intro i h1 h2
      rw [List.length_map, List.length_take, length_setGrad] at h1
      have hi : i < xs.length := by omega
      have hiA1 : i < A1.length := by omega
      have hval : nval A1 i = xs.getD i 0 := by
        rw [Es.ext.old_val i (by rw [seedArena_length]; omega), seedArena_nval xs i hi]
      have hsglen : i < (setGrad A1 r 1).length := by
        rw [length_setGrad]
        omega
      rw [List.getElem_map, List.getElem_take]
      have hsg : (setGrad A1 r 1)[i] = (setGrad A1 r 1).getD i dflt := by
        rw [List.getD_eq_getElem _ dflt hsglen]
      have hv2 : ((setGrad A1 r 1).getD i dflt).value = xs.getD i 0 := by
        have := nval_setGrad A1 r i 1
        unfold nval at this
        rw [this, ← hval]
        rfl
      have hseed : (seedArena xs)[i] = (⟨xs.getD i 0, [], none⟩ : RNode) := by
        unfold seedArena
        rw [List.getElem_map]
        rw [List.getD_eq_getElem xs 0 hi]
      rw [hseed, hsg, hv2]

/-- Running the multi-variable reverse loop on a single function from
the fresh seed arena. -/
theorem radComputeMulti_singleton (L : ℚ → ℚ) (xs : List ℚ) (f : Expr)
    (row : List ℚ) (A2 : Arena)
    (h : radPassShared L xs.length f (seedArena xs) = .ok (row, A2)) :
    radComputeMulti L xs.length [f] (seedArena xs) = .ok [row] := by
  simp only [radComputeMulti, h]

/- ### Concrete user functions from the repository's spec and tests -/

/-- A log model for closed computations on log-free expressions (the
statements below never depend on its values). -/
def L0 : ℚ → ℚ := fun _ => 0

/-- `f(x) = 4*x + 3` (spec section 8, `test_scalar_get_primal`). -/
def exLinear : Expr := .bin .add (.bin .mul (.const 4) (.var 0)) (.const 3)

/-- `f1(x) = (5*x[0] + 50)/(2*x[1]**2)` (`test_vector_get_jacobian_RM`). -/
def exF1 : Expr := .bin .div (.bin .add (.bin .mul (.const 5) (.var 0)) (.const 50))
  (.bin .mul (.const 2) (.un (.pown 2) (.var 1)))

/-- `f2(x) = 10 + 2*x[1]` (`test_vector_get_jacobian_RM`). -/
def exF2 : Expr := .bin .add (.const 10) (.bin .mul (.const 2) (.var 1))

/-- `f(x) = x[0]*x[1]`, a non-separable two-variable function. -/
def exProd : Expr := .bin .mul (.var 0) (.var 1)

/-- `f(x) = x[0]**2 + 3*x[1] + 5` (spec section 8,
`test_vector_get_jacobian`). -/
def exSpec2 : Expr := .bin .add
  (.bin .add (.un (.pown 2) (.var 0)) (.bin .mul (.const 3) (.var 1))) (.const 5)

/- ### The claims -/

/-- C1: the forward engine's multi-variable Jacobian entry (j, i) is
claimed to equal the partial derivative of function j at the supplied
point, obtained by one-hot tangent seeding with every primal kept at the
point.  The code instead zeroes the other coordinates' primals
(`y = [DualNumber(0, 0)] * n; y[i] = self.trace[i]`), so for the
non-separable `f(x) = x[0]*x[1]` at `(1, 2)` it returns the row `[0, 0]`
although the true partials (the in-file chain-rule semantics `fpart`)
are `2` and `1`. -/
theorem c1_forward_seeding_bug :
    autodiff_compute L0 [exProd] [1, 2] = .ok ([2], [.row [0, 0]]) ∧
    fpart L0 (fun i => ([1, 2] : List ℚ).getD i 0) 0 exProd = 2 ∧
    fpart L0 (fun i => ([1, 2] : List ℚ).getD i 0) 1 exProd = 1 := by
  refine ⟨?_, ?_, ?_⟩
  · norm_num [autodiff_compute, adComputeList, adComputeOne, adTrace, adTangents,
      evalF, dualApplyBin, dualApplyUn, exProd, L0, BinOp.ok, BinOp.val, BinOp.d1,
      BinOp.d2, List.range_succ]
  · norm_num [fpart, flin, fval, exProd, BinOp.d1, BinOp.d2, BinOp.val]
  · norm_num [fpart, flin, fval, exProd, BinOp.d1, BinOp.d2, BinOp.val]

/-- C3: for `f1(x) = (5*x0 + 50)/(2*x1^2)` and `f2(x) = 10 + 2*x1` at
`(1, 2)`, `ReverseAD.get_jacobian` returns the combined flattened
Jacobian `[0.625, -6.875, 0, 2]`; the partial of `f2` with respect to
`x0` — whose seed node has an empty edge list and unseeded gradient
after `f2`'s pass — is reported as `0` (Python `sum([])`), not an
error. -/
theorem c3_reverse_vector_jacobian :
    reverseCompute L0 (.arr [exF1, exF2]) (.arr [1, 2]) =
      .ok ⟨false, [.row [5/8, -55/8], .row [0, 2]], 0⟩ ∧
    (reverseCompute L0 (.arr [exF1, exF2]) (.arr [1, 2])).map
      (fun s => (rad_get_jacobian s).1) = .ok (.row [5/8, -55/8, 0, 2]) := by
  constructor
  · norm_num [reverseCompute, radComputeMulti, radPassShared, resetSeeds, seedArena,
      evalR, revApplyBin, revApplyUn, addEdge, setGrad, nval, nchild, ngrad, dflt,
      grad, gradFuel, esum, exF1, exF2, L0, BinOp.ok, BinOp.val, BinOp.d1, BinOp.d2,
      UnOp.ok, UnOp.val, UnOp.d, List.range_succ, List.getD, List.set]
  · norm_num [reverseCompute, radComputeMulti, radPassShared, resetSeeds, seedArena,
      evalR, revApplyBin, revApplyUn, addEdge, setGrad, nval, nchild, ngrad, dflt,
      grad, gradFuel, esum, exF1, exF2, L0, BinOp.ok, BinOp.val, BinOp.d1, BinOp.d2,
      UnOp.ok, UnOp.val, UnOp.d, rad_get_jacobian, flattenJag, List.range_succ,
      Except.map, List.getD, List.set]

/-- C6 (counterexample): the claim states the reverse engine reports
primal 11 for `f(x) = 4x + 3` at `x = 2` via its primal accessor; in the
code `ReverseAD.get_primal` unconditionally raises
`NotImplementedError`, so the accessor on that very instance yields the
error, not `[11]`. -/
theorem c6_counterexample :
    (reverseCompute L0 (.arr [exLinear]) (.arr [2])).bind rad_get_primal
      = .error (.notImplementedError msgPrimal) := by
  norm_num [reverseCompute, radScalarList, radPassFresh, seedArena, evalR,
    revApplyBin, revApplyUn, addEdge, setGrad, nval, nchild, ngrad, dflt, grad,
    gradFuel, esum, exLinear, L0, BinOp.ok, BinOp.val, BinOp.d1, BinOp.d2,
    rad_get_primal, Except.bind, List.getD, List.set]

/-- C6 (amended): for `f(x) = 4x + 3` at `x = 2` the forward engine
yields primal 11 and derivative 4, and the reverse engine yields
derivative 4 via `get_jacobian`; but the reverse engine's primal
accessor raises `NotImplementedError` instead of reporting 11. -/
theorem c6_both_engines :
    autodiff_compute L0 [exLinear] [2] = .ok ([11], [.num 4]) ∧
    (reverseCompute L0 (.arr [exLinear]) (.arr [2])).map
      (fun s => (rad_get_jacobian s).1) = .ok (.row [4]) ∧
    (reverseCompute L0 (.arr [exLinear]) (.arr [2])).bind rad_get_primal
      = .error (.notImplementedError msgPrimal) := by
  refine ⟨?_, ?_, ?_⟩
  · norm_num [autodiff_compute, adComputeList, adComputeOne, adTrace, evalF,
      dualApplyBin, dualApplyUn, exLinear, L0, BinOp.ok, BinOp.val, BinOp.d1,
      BinOp.d2]
  · norm_num [reverseCompute, radScalarList, radPassFresh, seedArena, evalR,
      revApplyBin, revApplyUn, addEdge, setGrad, nval, nchild, ngrad, dflt, grad,
      gradFuel, esum, exLinear, L0, BinOp.ok, BinOp.val, BinOp.d1, BinOp.d2,
      rad_get_jacobian, flattenJag, Except.map, List.getD, List.set]
  · norm_num [reverseCompute, radScalarList, radPassFresh, seedArena, evalR,
      revApplyBin, revApplyUn, addEdge, setGrad, nval, nchild, ngrad, dflt, grad,
      gradFuel, esum, exLinear, L0, BinOp.ok, BinOp.val, BinOp.d1, BinOp.d2,
      rad_get_primal, Except.bind, List.getD, List.set]

/-- C7: the claim states `AutoDiff.get_jacobian` always returns a
matrix of shape (m, n), also when n = 1.  The single-variable branch of
`_compute` (line 151) appends the bare scalar `value.dual`, so for
`f(x) = 4x + 3`, `x = [2]` the jacobian is the flat `[4]`
(`Entry.num 4`), not the nested `[[4]]` the claim and the method's own
docstring ("2-D list of shape (# functions, # variables)") describe; for
n ≥ 2 the matrix shape does hold, as in the `x[0]^2 + 3*x[1] + 5`
example at `(1, 2)` with row `[2, 3]`. -/
theorem c7_scalar_jacobian_flat :
    autodiff_compute L0 [exLinear] [2] = .ok ([11], [.num 4]) ∧
    (∀ l : List ℚ, Entry.num 4 ≠ Entry.row l) ∧
    autodiff_compute L0 [exSpec2] [1, 2] = .ok ([12], [.row [2, 3]]) := by
  refine ⟨?_, ?_, ?_⟩
  · norm_num [autodiff_compute, adComputeList, adComputeOne, adTrace, evalF,
      dualApplyBin, dualApplyUn, exLinear, L0, BinOp.ok, BinOp.val, BinOp.d1,
      BinOp.d2]
  · intro l h
    exact Entry.noConfusion h
  · norm_num [autodiff_compute, adComputeList, adComputeOne, adTrace, adTangents,
      evalF, dualApplyBin, dualApplyUn, exSpec2, L0, BinOp.ok, BinOp.val, BinOp.d1,
      BinOp.d2, UnOp.ok, UnOp.val, UnOp.d, List.range_succ]

/-- C9: constructing `ReverseAD` with an empty variable list falls
through every branch of `_compute` to
`raise TypeError('Variable list cannot be empty!')` before the function
argument is even inspected, and no Jacobian entry is produced (the
construction yields the error instead of a state). -/
theorem c9_empty_var_list : ∀ (L : ℚ → ℚ) (f : FArg),
    reverseCompute L f (.arr []) = .error (.typeError msgEmpty) := by
  intro L f
  rfl

/-- C10: `AutoDiff` wraps a bare callable into a one-element array and
accepts it (lines 96-97), while `ReverseAD` performs no such
normalization: whatever the variable argument is, constructing
`ReverseAD` with a bare callable raises an uncaught `TypeError` — from
`len(self.f)` in the non-empty branches, from the empty-list check
otherwise — so `ReverseAD` succeeds only on a sized container of
callables. -/
theorem c10_reverse_requires_container :
    (∀ f : Expr, adNormalizeF (.single f) = [f]) ∧
    (∀ (L : ℚ → ℚ) (f : Expr) (v : VarArg),
      autodiff_init L (.single f) v = autodiff_compute L [f] (adNormalizeVar v)) ∧
    (∀ (L : ℚ → ℚ) (f : Expr) (v : VarArg), ∃ m,
      reverseCompute L (.single f) v = .error (.typeError m)) := by
  refine ⟨fun f => rfl, fun L f v => rfl, ?_⟩
  intro L f v
  cases v with
  | scalar x => exact ⟨msgLen, rfl⟩
  | arr xs =>
    rw [reverseCompute]
    by_cases h1 : xs.length = 1
    · rw [if_pos h1]
      exact ⟨msgLen, rfl⟩
    · rw [if_neg h1]
      by_cases h2 : 1 < xs.length
      · rw [if_pos h2]
        exact ⟨msgLen, rfl⟩
      · rw [if_neg h2]
        exact ⟨msgEmpty, rfl⟩

/-- C4: repeated calls are stateless.  `ReverseAD.get_jacobian` mutates
`self.jacobian` (it stores the flattened list back), yet a second call
returns the same value and leaves the same state, because flattening an
already-flat list is the identity; and both engines are pure functions
of (function, point) — the instances share no state, so a second
invocation (also after invocations on other functions or points) yields
the identical primal and derivative results. -/
theorem c4_idempotent :
    (∀ s : RState, rad_get_jacobian (rad_get_jacobian s).2 = rad_get_jacobian s) ∧
    (∀ (L : ℚ → ℚ) (f : FArg) (v : VarArg),
      reverseCompute L f v = reverseCompute L f v ∧
      autodiff_init L f v = autodiff_init L f v) := by
  constructor
  · intro s
    cases hv : s.varScalar with
    | true => simp [rad_get_jacobian, hv]
    | false => simp [rad_get_jacobian, hv, flattenJag_map_num]
  · intro L f v
    exact ⟨rfl, rfl⟩

/-- C5: within one multi-variable `ReverseAD` invocation over several
functions, each pass ends by clearing every seed node's edge list and
unsetting its gradient (lines 325-327), so the shared trace re-enters
each pass in its freshly-constructed state and row i of the combined
Jacobian equals the row obtained by running the engine on function i
alone. -/
theorem c5_rows_independent (L : ℚ → ℚ) (xs : List ℚ) :
    ∀ (fs : List Expr) (rows : List (List ℚ)),
      (∀ f ∈ fs, f.boundedB xs.length = true) →
      radComputeMulti L xs.length fs (seedArena xs) = .ok rows →
      rows.length = fs.length ∧
      ∀ i, i < fs.length →
        radComputeMulti L xs.length [fs.getD i (.const 0)] (seedArena xs)
          = .ok [rows.getD i []] := by
  intro fs
  induction fs with
  | nil =>
    intro rows hball h
    simp only [radComputeMulti] at h
    cases h
    exact ⟨rfl, fun i hi => absurd hi (by simp at hi)⟩
  | cons f fs ih =>
    intro rows hball h
    simp only [radComputeMulti] at h
    split at h
    · cases h
    case _ row A2 hpass =>
      split at h
      · cases h
      case _ rows2 hrest =>
        cases h
        have hA2 : A2 = seedArena xs :=
          reset_after_pass L xs f (hball f (by simp)) row A2 hpass
        rw [hA2] at hrest
        obtain ⟨hlen, hall⟩ := ih rows2 (fun g hg => hball g (by simp [hg])) hrest
        refine ⟨by simp [hlen], ?_⟩
        intro i hi
        cases i with
        | zero =>
          rw [List.getD_cons_zero, List.getD_cons_zero]
          exact radComputeMulti_singleton L xs f row (seedArena xs) (hA2 ▸ hpass)
        | succ n =>
          rw [List.getD_cons_succ, List.getD_cons_succ]
          exact hall n (by simpa using hi)

/-- Every function of a successfully constructed `AutoDiff` instance
was evaluated without a domain error on the forward trace. -/
theorem adComputeList_mem (L : ℚ → ℚ) (xs : List ℚ) (trace : List DualNumber) :
    ∀ (fs : List Expr) (rs : List (ℚ × Entry)) (f : Expr),
      adComputeList L xs trace fs = .ok rs → f ∈ fs →
      ∃ pe, adComputeOne L xs trace f = .ok pe := by
  intro fs
  induction fs with
  | nil =>
    intro rs f _ hf
    cases hf
  | cons g fs ih =>
    intro rs f h hf
    simp only [adComputeList] at h
    split at h
    · cases h
    case _ pe hone =>
      split at h
      · cases h
      case _ rest hrest =>
        rcases List.mem_cons.mp hf with rfl | hmem
        · exact ⟨pe, hone⟩
        · exact ih rest f hrest hmem

/-- A successful per-function forward computation means the function was
evaluated without a domain error on the forward trace. -/
theorem adComputeOne_evalF (L : ℚ → ℚ) (xs : List ℚ) (f : Expr) (pe : ℚ × Entry)
    (h : adComputeOne L xs (adTrace xs) f = .ok pe) :
    ∃ d, evalF L (adTrace xs) f = .ok d := by
  rw [adComputeOne] at h
  split at h
  case isTrue hlen =>
    obtain ⟨x, rfl⟩ := List.length_eq_one.mp hlen
    split at h
    · cases h
    case _ value hval =>
      exact ⟨value, hval⟩
  case isFalse hlen =>
    split at h
    · cases h
    case _ value hval =>
      exact ⟨value, hval⟩

/-- C8: domain errors.  In both kernels, division checks the
denominator's primal and `ln` checks positivity of its argument's
primal, failing immediately with `DomainError` exactly on the
mathematically invalid inputs (spec sections 4.1, 4.2, 7); and a
Jacobian is only returned when every function evaluated without a
domain error, so no junk value from an invalid operation ever reaches a
returned Jacobian. -/
theorem c8_domain_errors :
    (∀ x y : DualNumber, dualApplyBin .div x y = .error .domainError ↔ y.real = 0) ∧
    (∀ (L : ℚ → ℚ) (x : DualNumber),
      dualApplyUn L .ln x = .error .domainError ↔ x.real ≤ 0) ∧
    (∀ (A : Arena) (r1 r2 : Nat),
      revApplyBin .div r1 r2 A = .error .domainError ↔ nval A r2 = 0) ∧
    (∀ (L : ℚ → ℚ) (A : Arena) (r1 : Nat),
      revApplyUn L .ln r1 A = .error .domainError ↔ nval A r1 ≤ 0) ∧
    (∀ (L : ℚ → ℚ) (fs : List Expr) (xs : List ℚ) (p : List ℚ) (jac : List Entry),
      autodiff_compute L fs xs = .ok (p, jac) →
      ∀ f ∈ fs, ∃ d, evalF L (adTrace xs) f = .ok d) := by
  refine ⟨?_, ?_, ?_, ?_, ?_⟩
  · intro x y
    rw [dualApplyBin]
    split
    next h =>
      rw [BinOp.ok, decide_eq_true_eq] at h
      simp [h]
    next h =>
      rw [BinOp.ok] at h
      simp at h
      simp [h]
  · intro L x
    rw [dualApplyUn]
    split
    next h =>
      rw [UnOp.ok, decide_eq_true_eq] at h
      simp [h, not_le.mpr h]
    next h =>
      rw [UnOp.ok] at h
      simp at h
      simp [h]
  · intro A r1 r2
    rw [revApplyBin]
    split
    next h =>
      rw [BinOp.ok, decide_eq_true_eq] at h
      simp [h]
    next h =>
      rw [BinOp.ok] at h
      simp at h
      simp [h]
  · intro L A r1
    rw [revApplyUn]
    split
    next h =>
      rw [UnOp.ok, decide_eq_true_eq] at h
      simp [h, not_le.mpr h]
    next h =>
      rw [UnOp.ok] at h
      simp at h
      simp [h]
  · intro L fs xs p jac h f hf
    rw [autodiff_compute] at h
    split at h
    · cases h
    case _ rs hlist =>
      obtain ⟨pe, hone⟩ := adComputeList_mem L xs (adTrace xs) fs rs f hlist hf
      exact adComputeOne_evalF L xs f pe hone

/-- C2: cross-engine consistency.  For any single-variable user function
and point, when both engines construct successfully, the derivative the
forward engine stores (the tangent of a seed-1 dual evaluation, returned
by `AutoDiff.get_jacobian`) equals the gradient the reverse engine
stores and returns via `ReverseAD.get_jacobian`. -/
theorem c2_cross_engine_consistency (L : ℚ → ℚ) (e : Expr) (x : ℚ)
    (hb : e.boundedB 1 = true) (p : List ℚ) (jac : List Entry) (s : RState)
    (hf : autodiff_compute L [e] [x] = .ok (p, jac))
    (hr : reverseCompute L (.arr [e]) (.arr [x]) = .ok s) :
    ∃ t, jac = [.num t] ∧ (rad_get_jacobian s).1 = .row [t] := by
  rw [autodiff_compute] at hf
  split at hf
  · cases hf
  case _ rs hlist =>
    cases hf
    simp only [adComputeList] at hlist
    split at hlist
    · cases hlist
    case _ pe hone =>
      rw [adComputeOne, if_pos (show ([x] : List ℚ).length = 1 from rfl)] at hone
      split at hone
      · cases hone
      case _ value hval =>
        cases hone
        cases hlist
        rw [reverseCompute, if_pos (show ([x] : List ℚ).length = 1 from rfl)] at hr
        simp only [radScalarList, radPassFresh, List.getD_cons_zero] at hr
        cases hevalR : evalR L e (seedArena [x]) with
        | error err =>
          rw [hevalR] at hr
          cases hr
        | ok ra =>
          obtain ⟨r, A1⟩ := ra
          rw [hevalR] at hr
          cases hr
          have hval1 : evalF L [(⟨x, 1⟩ : DualNumber)] e = .ok value := hval
          obtain ⟨_, hdual⟩ := evalF_spec L [⟨x, 1⟩] e value hval1
          have hb1 : e.boundedB ([x] : List ℚ).length = true := hb
          have hg := reverse_grad_correct L e [x] r A1 hb1 hevalR 0 (by simp)
          have hVeq : (fun i => (([(⟨x, 1⟩ : DualNumber)] : List DualNumber).getD i
              ⟨0, 0⟩).real) = (fun i => ([x] : List ℚ).getD i 0) := by
            funext i
            cases i with
            | zero => rfl
            | succ n => rfl
          have hTeq : (fun i => (([(⟨x, 1⟩ : DualNumber)] : List DualNumber).getD i
              ⟨0, 0⟩).dual) = (fun i => if i = 0 then (1 : ℚ) else 0) := by
            funext i
            cases i with
            | zero => rfl
            | succ n => rfl
          refine ⟨value.dual, rfl, ?_⟩
          show Entry.row [grad (setGrad A1 r 1) 0] = Entry.row [value.dual]
          rw [hg, hdual, hVeq, hTeq]
          rfl

/-- C2 witness: both engines on `f(x) = 4x + 3` at `x = 2`; the common
derivative is 4. -/
theorem c2_witness : ∃ t, ([Entry.num 4] : List Entry) = [.num t] ∧
    (rad_get_jacobian ⟨false, [.num 4], 0⟩).1 = .row [t] :=
  c2_cross_engine_consistency L0 exLinear 2 (by rfl) [11] [.num 4]
    ⟨false, [.num 4], 0⟩
    (by norm_num [autodiff_compute, adComputeList, adComputeOne, adTrace, evalF,
      dualApplyBin, dualApplyUn, exLinear, L0, BinOp.ok, BinOp.val, BinOp.d1,
      BinOp.d2])
    (by norm_num [reverseCompute, radScalarList, radPassFresh, seedArena, evalR,
      revApplyBin, revApplyUn, addEdge, setGrad, nval, nchild, ngrad, dflt, grad,
      gradFuel, esum, exLinear, L0, BinOp.ok, BinOp.val, BinOp.d1, BinOp.d2,
      List.getD, List.set])

/-- C5 witness: the two-function vector example; each row of the
combined run equals the corresponding standalone run. -/
theorem c5_witness :
    ([[5/8, -55/8], [0, 2]] : List (List ℚ)).length
      = ([exF1, exF2] : List Expr).length ∧
    ∀ i, i < ([exF1, exF2] : List Expr).length →
      radComputeMulti L0 ([1, 2] : List ℚ).length
        [([exF1, exF2] : List Expr).getD i (.const 0)] (seedArena [1, 2])
        = .ok [([[5/8, -55/8], [0, 2]] : List (List ℚ)).getD i []] :=
  c5_rows_independent L0 [1, 2] [exF1, exF2] [[5/8, -55/8], [0, 2]]
    (by
      intro f hf
      rcases List.mem_cons.mp hf with rfl | hf2
      · rfl
      rcases List.mem_cons.mp hf2 with rfl | hf3
      · rfl
      cases hf3)
    (by norm_num [radComputeMulti, radPassShared, resetSeeds, seedArena,
      evalR, revApplyBin, revApplyUn, addEdge, setGrad, nval, nchild, ngrad, dflt,
      grad, gradFuel, esum, exF1, exF2, L0, BinOp.ok, BinOp.val, BinOp.d1, BinOp.d2,
      UnOp.ok, UnOp.val, UnOp.d, List.range_succ, List.getD, List.set])

/-- C8 witness: division by a zero primal errors, and the successfully
constructed forward instance for `4x + 3` at `x = 2` evaluated its
function without a domain error. -/
theorem c8_witness :
    (dualApplyBin .div ⟨1, 0⟩ ⟨0, 0⟩ = .error .domainError ↔
      (⟨0, 0⟩ : DualNumber).real = 0) ∧
    ∃ d, evalF L0 (adTrace [2]) exLinear = .ok d :=
  ⟨c8_domain_errors.1 ⟨1, 0⟩ ⟨0, 0⟩,
    c8_domain_errors.2.2.2.2 L0 [exLinear] [2] [11] [.num 4]
      (by norm_num [autodiff_compute, adComputeList, adComputeOne, adTrace, evalF,
        dualApplyBin, dualApplyUn, exLinear, L0, BinOp.ok, BinOp.val, BinOp.d1,
        BinOp.d2])
      exLinear (by simp)⟩

end BadPackage
